import Mathlib

/-!
Verification development for the engula repository core: the on-disk sorted
table (SST) builder/reader (`src/engula/src/format/sstable.rs`) and the
client-side routing cache (`src/src/client/src/router.rs`).

Machine integers (u64, u32, usize) are modelled as `Nat`; the only arithmetic
performed on them in the modelled code is comparison, except for crc32 and the
byte codecs, which reduce modulo 2^32 / 256 explicitly.  Fallible operations
return `Option`.  Rust panics (assert!/unwrap/todo!) are modelled as a
distinguished failure outcome or as `Option.none`, as noted at each definition.
-/

/-! ## Finite maps

Rust `HashMap`s are modelled extensionally as functions into `Option`. -/

def upd {V : Type} (m : Nat → Option V) (k : Nat) (v : V) : Nat → Option V :=
  fun q => if q = k then some v else m q

def updDel {V : Type} (m : Nat → Option V) (k : Nat) : Nat → Option V :=
  fun q => if q = k then none else m q

def updS {V : Type} (m : String → Option V) (k : String) (v : V) : String → Option V :=
  fun q => if q = k then some v else m q

def updSDel {V : Type} (m : String → Option V) (k : String) : String → Option V :=
  fun q => if q = k then none else m q

/-! ## SST layer: data model

`src/engula/src/format/sstable.rs` imports the block layer from
`super::block` and `super::two_level_iterator`, which are not part of the
repository snapshot; those pieces are modelled from the spec (sections 3,
4.1-4.4 and 6) as indicated by their doc comments.  The spec declares the
byte format of a block opaque ("the block format is opaque to this spec"),
so the model represents the table file at block granularity: a file is a
list of segments, a written block keeps its entry sequence, and a
`BlockHandle.offset` indexes segments instead of bytes.  `BlockHandle.size`
is correspondingly measured by the segment length.  The 16-byte handle
encoding of spec section 6 is kept: 8 little-endian base-256 limbs per
field (the topmost limb is left uncapped so that the codec is lossless on
all of `Nat`; on every u64 value it coincides with the spec's encoding). -/

structure Entry where
  ts : Nat
  key : List Nat
  value : List Nat
deriving DecidableEq, Repr

/-- Placeholder entry used only as the default of `List.getLastD`. -/
def dummyEntry : Entry := ⟨0, [], []⟩

def ikOf (e : Entry) : Nat × List Nat := (e.ts, e.key)

/-- InternalKey strict order (spec section 3): user_key ascending
(lexicographic on bytes), then timestamp descending. -/
def ikLt (a b : Nat × List Nat) : Prop :=
  a.2 < b.2 ∨ (a.2 = b.2 ∧ b.1 < a.1)

instance (a b : Nat × List Nat) : Decidable (ikLt a b) := by
  unfold ikLt; infer_instance

def ikLtb (a b : Nat × List Nat) : Bool := decide (ikLt a b)

/-- The `add` precondition checked by the assert in `SstBuilder::add`
(sstable.rs line 87): `this_key > last_key || (this_key == last_key && ts <
last_ts)`. -/
def addOk (lastTs : Nat) (lastKey : List Nat) (ts : Nat) (key : List Nat) : Prop :=
  lastKey < key ∨ (key = lastKey ∧ ts < lastTs)

instance (lt : Nat) (lk : List Nat) (ts : Nat) (k : List Nat) :
    Decidable (addOk lt lk ts k) := by
  unfold addOk; infer_instance

/-- The chained `add` precondition for a whole sequence, anchored at the
builder's current `(last_ts, last_key)` (initially `(0, [])`). -/
def validFrom (lastTs : Nat) (lastKey : List Nat) : List Entry → Bool
  | [] => true
  | e :: rest => decide (addOk lastTs lastKey e.ts e.key) && validFrom e.ts e.key rest

/-- Byte codec limbs: `encAux k n` is `k+1` base-256 limbs of `n`, least
significant first, the top limb uncapped. -/
def encAux : Nat → Nat → List Nat
  | 0, n => [n]
  | k + 1, n => n % 256 :: encAux k (n / 256)

def decLimbs : List Nat → Nat
  | [] => 0
  | b :: bs => b + 256 * decLimbs bs

structure BlockHandle where
  offset : Nat
  size : Nat
deriving DecidableEq, Repr

/-- Modelled from the spec: `BlockHandle::encode` of the missing
`super::block` module; fixed 16-byte encoding, bytes 0..7 the offset,
bytes 8..15 the size (spec sections 4.2 and 6). -/
def BlockHandle.encode (h : BlockHandle) : List Nat :=
  encAux 7 h.offset ++ encAux 7 h.size

/-- Modelled from the spec: `BlockHandle::decode_from` of the missing
`super::block` module; reads the two u64 fields back, assuming at least 16
input bytes (spec section 4.2). -/
def BlockHandle.decode_from (bs : List Nat) : BlockHandle :=
  ⟨decLimbs (bs.take 8), decLimbs ((bs.drop 8).take 8)⟩

/-- `FOOTER_SIZE = BLOCK_HANDLE_SIZE = 16` (sstable.rs line 27). -/
def FOOTER_SIZE : Nat := 16

/-- Modelled from the spec: the per-entry contribution to
`BlockBuilder::approximate_size` of the missing `super::block` module; the
on-disk InternalKey is `user_key || be_u64(ts) || u8(kind)` followed by the
value bytes (spec sections 3 and 6). -/
def entrySize (e : Entry) : Nat :=
  e.key.length + 8 + 1 + e.value.length

/-- Modelled from the spec: `BlockBuilder` of the missing `super::block`
module; the block byte format is opaque in the spec, so a block is its
entry sequence (spec section 4.1). -/
structure BlockBuilder where
  entries : List Entry
deriving Repr

def BlockBuilder.new : BlockBuilder := ⟨[]⟩

/-- Modelled from the spec: `BlockBuilder::add` appends a record
(spec section 4.1). -/
def BlockBuilder.add (b : BlockBuilder) (ts : Nat) (key value : List Nat) : BlockBuilder :=
  ⟨b.entries ++ [⟨ts, key, value⟩]⟩

/-- Modelled from the spec: `BlockBuilder::approximate_size`
(spec section 4.1). -/
def BlockBuilder.approximateSize (b : BlockBuilder) : Nat :=
  (b.entries.map entrySize).sum

/-- Modelled from the spec: `BlockBuilder::finish` returns the block
contents; the caller resets the builder (spec sections 4.1 and 4.5). -/
def BlockBuilder.finish (b : BlockBuilder) : List Entry := b.entries

/-- A written segment of the (block-granular) table file: either a block or
raw bytes (the footer). -/
inductive Segment where
  | block (entries : List Entry)
  | raw (bytes : List Nat)
deriving DecidableEq, Repr

def segLen : Segment → Nat
  | .block es => es.length
  | .raw bs => bs.length

/-- `SstFileWriter` (sstable.rs lines 116-142): an append-only sink with a
running offset; block-granular in the model, so the offset is the segment
index. -/
structure SstFileWriter where
  segments : List Segment
deriving Repr

def SstFileWriter.new : SstFileWriter := ⟨[]⟩

/-- `SstFileWriter::write_block` (sstable.rs lines 133-141): appends the
block and returns its handle. -/
def SstFileWriter.write_block (w : SstFileWriter) (s : Segment) :
    SstFileWriter × BlockHandle :=
  (⟨w.segments ++ [s]⟩, ⟨w.segments.length, segLen s⟩)

/-- `SstFileWriter::file_size` (sstable.rs lines 129-131): the running
offset, i.e. the number of segments written in the model. -/
def SstFileWriter.file_size (w : SstFileWriter) : Nat := w.segments.length

/-- `SstBuilder` state (sstable.rs lines 47-55).  The modelled in-memory
writer cannot fail, so the sticky `error` field stays `false`. -/
structure SstBuilder where
  blockSize : Nat
  file : SstFileWriter
  error : Bool
  lastTs : Nat
  lastKey : List Nat
  dataBlock : BlockBuilder
  indexBlock : BlockBuilder
deriving Repr

/-- `SstBuilder::new` (sstable.rs lines 58-68). -/
def SstBuilder.new (blockSize : Nat) : SstBuilder :=
  ⟨blockSize, SstFileWriter.new, false, 0, [], BlockBuilder.new, BlockBuilder.new⟩

/-- `SstBuilder::flush_data_block` (sstable.rs lines 70-78): write the
current data block, emit an index entry `(last_ts, last_key) ->
encoded_handle`, reset the data block (the reset is performed by
`BlockBuilder::finish` consuming the builder, spec section 4.1). -/
def SstBuilder.flush_data_block (b : SstBuilder) : SstBuilder :=
  let block := b.dataBlock.finish
  let wh := b.file.write_block (.block block)
  { b with
    file := wh.1
    dataBlock := BlockBuilder.new
    indexBlock := b.indexBlock.add b.lastTs b.lastKey wh.2.encode }

/-- `SstBuilder::add` (sstable.rs lines 82-96).  `none` models the
assertion failure on a precondition violation; a sticky error (impossible
in the model) makes `add` a no-op. -/
def SstBuilder.add (b : SstBuilder) (ts : Nat) (key value : List Nat) :
    Option SstBuilder :=
  if b.error then some b
  else if addOk b.lastTs b.lastKey ts key then
    let b1 := { b with
      lastTs := ts
      lastKey := key
      dataBlock := b.dataBlock.add ts key value }
    some (if b1.blockSize ≤ b1.dataBlock.approximateSize then
            b1.flush_data_block
          else b1)
  else none

/-- `SstBuilder::finish` (sstable.rs lines 98-113): flush a non-empty data
block, then write the index block and the footer if the index is non-empty;
return the final file size.  `none` models returning the sticky error. -/
def SstBuilder.finish (b : SstBuilder) : Option (SstBuilder × Nat) :=
  if b.error then none
  else
    let b1 := if 0 < b.dataBlock.approximateSize then b.flush_data_block else b
    let b2 :=
      if 0 < b1.indexBlock.approximateSize then
        let block := b1.indexBlock.finish
        let wh := b1.file.write_block (.block block)
        let footerBytes := BlockHandle.encode wh.2
        let wh2 := wh.1.write_block (.raw footerBytes)
        { b1 with file := wh2.1, indexBlock := BlockBuilder.new }
      else b1
    some (b2, b2.file.file_size)

/-- Feed a sequence of entries through `SstBuilder::add`. -/
def buildAll (b : SstBuilder) : List Entry → Option SstBuilder
  | [] => some b
  | e :: rest => match b.add e.ts e.key e.value with
    | some b1 => buildAll b1 rest
    | none => none

/-- Build a whole table: `add` every entry then `finish`; the resulting
file contents. -/
def buildTable (blockSize : Nat) (es : List Entry) : Option (List Segment) :=
  match buildAll (SstBuilder.new blockSize) es with
  | some b => match b.finish with
    | some br => some br.1.file.segments
    | none => none
  | none => none

/-! ## SST layer: reader and iterators -/

/-- `SstReader` (sstable.rs lines 144-148): the file plus the retained
index block. -/
structure SstReader where
  segments : List Segment
  indexBlock : List Entry
deriving Repr

/-- `SstReader::open` (sstable.rs lines 151-166) at block granularity:
the last `FOOTER_SIZE` bytes must exist and decode to the index handle
(`none` models the size assertion and corrupted-footer failures); the
index block is read and retained. -/
def SstReader.openSegs (segs : List Segment) : Option SstReader :=
  match segs.getLast? with
  | some (.raw bs) =>
    if bs.length = FOOTER_SIZE then
      match segs[(BlockHandle.decode_from bs).offset]? with
      | some (.block es) => some ⟨segs, es⟩
      | _ => none
    else none
  | _ => none

/-- `SstBlockIterGenerator::spawn` (sstable.rs lines 206-213): decode the
index value into a handle and read that block.  An out-of-range read
(impossible for files produced by the builder) yields `[]`, standing for
the read-error path. -/
def readBlock (segs : List Segment) (indexValue : List Nat) : List Entry :=
  match segs[(BlockHandle.decode_from indexValue).offset]? with
  | some (.block es) => es
  | _ => []

/-- Modelled from the spec: `BlockIterator::seek` of the missing
`super::block` module positions at the first entry with InternalKey ≥ the
target (spec section 4.1); the result is the remaining suffix. -/
def blockSeek (es : List Entry) (t : Nat × List Nat) : List Entry :=
  es.dropWhile (fun e => ikLtb (ikOf e) t)

/-- Modelled from the spec: a fresh iterator's full iteration, for the
missing `super::two_level_iterator` module; the two-level iterator walks
the index entries and concatenates the spawned data blocks
(spec sections 4.3 and 4.4). -/
def iterAll (r : SstReader) : List Entry :=
  (r.indexBlock.map (fun ie => readBlock r.segments ie.value)).flatten

/-- Modelled from the spec: the entry a freshly reloaded inner iterator is
positioned at after the outer iterator advances past exhausted blocks
(spec section 4.4). -/
def headOfBlocks (segs : List Segment) (ies : List Entry) : Option Entry :=
  ((ies.map (fun ie => readBlock segs ie.value)).flatten).head?

/-- Modelled from the spec: `TwoLevelIterator::seek` of the missing
`super::two_level_iterator` module — position the index iterator at the
first index entry with key ≥ target, load that block, seek the inner
iterator, and if the inner iterator is exhausted advance the outer and
reload (spec section 4.4).  The result is `current()` after the seek. -/
def twoLevelSeek (segs : List Segment) (ies : List Entry) (t : Nat × List Nat) :
    Option Entry :=
  match ies.dropWhile (fun ie => ikLtb (ikOf ie) t) with
  | [] => none
  | ie :: rest =>
    match blockSeek (readBlock segs ie.value) t with
    | e :: _ => some e
    | [] => headOfBlocks segs rest

/-- `SstReader::get` (sstable.rs lines 171-183): seek a two-level iterator
to `(ts, key)` and return the value only on an exact `(ts, key)` match. -/
def SstReader.get (r : SstReader) (ts : Nat) (key : List Nat) : Option (List Nat) :=
  match twoLevelSeek r.segments r.indexBlock (ts, key) with
  | some e => if e.ts = ts ∧ e.key = key then some e.value else none
  | none => none

/-! ## SST layer: byte-level model of the open path (for the framing-read
claim)

`SstReader::open` performs raw `read_at` calls whose returned fill counts
it discards; this is modelled separately at byte level.  A reader is a
function from requested length and offset to `none` (I/O error) or
`some (bytes_filled, buffer_after_call)`; the buffers passed by `open` are
zero-initialised (`[0; FOOTER_SIZE]` and `resize(size, 0)`). -/

def ReadAtFn : Type := Nat → Nat → Option (Nat × List Nat)

/-- `SstReader::open` (sstable.rs lines 151-166) at byte level: the size
assertion, the footer read at `size - FOOTER_SIZE`, the footer decode, and
the index-block read.  Exactly as in the source, the `usize` fill counts
returned by `read_at` are bound and discarded; only `read_at` errors
propagate.  Returns the decoded index handle and the index buffer. -/
def SstReader.openRaw (readAt : ReadAtFn) (size : Nat) :
    Option (BlockHandle × List Nat) :=
  if size < FOOTER_SIZE then none
  else
    match readAt FOOTER_SIZE (size - FOOTER_SIZE) with
    | none => none
    | some footerRead =>
      let footer := BlockHandle.decode_from footerRead.2
      match readAt footer.size footer.offset with
      | none => none
      | some indexRead => some (footer, indexRead.2)

/-- A reader that always reports zero bytes filled and leaves the
zero-initialised destination buffer untouched (a short read at EOF). -/
def shortReader : ReadAtFn := fun len _ => some (0, List.replicate len 0)

/-! ## Router: data model

Descriptor types from `engula_api` (`src/src/client/src/router.rs` imports
them; the proto definitions are not part of the snapshot, so the carried
fields are the ones the router reads).  Names and byte strings are `String`
and `List Nat`; ids, epochs, terms and roles are `Nat`. -/

structure NodeDesc where
  id : Nat
  addr : String
deriving DecidableEq, Repr

structure DatabaseDesc where
  id : Nat
  name : String
deriving DecidableEq, Repr

/-- `collection_desc::Partition`: hash with a slot count, or range. -/
inductive CoPartition where
  | hash (slots : Nat)
  | range
deriving DecidableEq, Repr

structure CollectionDesc where
  id : Nat
  name : String
  db : Nat
  partition : Option CoPartition
deriving DecidableEq, Repr

/-- `shard_desc::Partition`: hash `{slot_id, slots}` or range
`{start, end}` (empty end means +infinity). -/
inductive ShPartition where
  | hash (slotId slots : Nat)
  | range (start endKey : List Nat)
deriving DecidableEq, Repr

structure ShardDesc where
  id : Nat
  collection_id : Nat
  partition : Option ShPartition
deriving DecidableEq, Repr

structure ReplicaDesc where
  id : Nat
  node_id : Nat
deriving DecidableEq, Repr

/-- `ReplicaState`: per-replica raft state carried by a `GroupState`. -/
structure ReplicaState where
  replica_id : Nat
  term : Nat
  role : Nat
deriving DecidableEq, Repr

/-- The wire value of `RaftRole::Leader as i32`. -/
def leaderRoleId : Nat := 2

structure GroupState where
  group_id : Nat
  leader_id : Option Nat
  replicas : List ReplicaState
deriving DecidableEq, Repr

structure GroupDesc where
  id : Nat
  epoch : Nat
  shards : List ShardDesc
  replicas : List ReplicaDesc
deriving DecidableEq, Repr

/-- `RouterGroupState` (router.rs lines 53-59). -/
@[ext]
structure RouterGroupState where
  id : Nat
  epoch : Nat
  leader_state : Option (Nat × Nat)
  replicas : Nat → Option ReplicaDesc

/-- `State` (router.rs lines 39-51). -/
structure State where
  node_id_lookup : Nat → Option String
  db_id_lookup : Nat → Option DatabaseDesc
  db_name_lookup : String → Option Nat
  co_id_lookup : Nat → Option CollectionDesc
  co_name_lookup : Nat → String → Option Nat
  co_shards_lookup : Nat → Option (List ShardDesc)
  shard_group_lookup : Nat → Option (Nat × Nat)
  group_id_lookup : Nat → Option RouterGroupState
  cached_group_states : Nat → Option GroupState

/-- `State::default()`: all maps empty. -/
def State.default : State :=
  ⟨fun _ => none, fun _ => none, fun _ => none, fun _ => none,
   fun _ _ => none, fun _ => none, fun _ => none, fun _ => none, fun _ => none⟩

/-- The `candidates` vector of `leader_state` (router.rs lines 344-349):
`(replica_id, term)` of every replica whose role is Leader. -/
def leaderCandidates (gs : GroupState) : List (Nat × Nat) :=
  (gs.replicas.filter (fun r => r.role == leaderRoleId)).map
    (fun r => (r.replica_id, r.term))

/-- `leader_state` (router.rs lines 335-355): if `leader_id` is absent the
result is none; otherwise collect the `(replica_id, term)` of every replica
whose role is Leader, stably sort by term (`sort_by_key` is a stable sort),
and pop the last. -/
def leader_state (gs : GroupState) : Option (Nat × Nat) :=
  match gs.leader_id with
  | some _ =>
    (List.insertionSort (fun a b : Nat × Nat => a.2 ≤ b.2) (leaderCandidates gs)).getLast?
  | none => none

/-- `replicas.into_iter().map(|d| (d.id, d)).collect::<HashMap<_,_>>()`
(router.rs lines 219-222). -/
def replicasMap (rs : List ReplicaDesc) : Nat → Option ReplicaDesc :=
  rs.foldl (fun m d => upd m d.id d) (fun _ => none)

/-- The per-shard body of the loop in `State::apply_group_descriptor`
(router.rs lines 236-259), updating `shard_group_lookup` and
`co_shards_lookup` for one shard of a descriptor with the given group id
and epoch. -/
def applyShard (gid epoch : Nat) (st : State) (shard : ShardDesc) : State :=
  let sgl :=
    match st.shard_group_lookup shard.id with
    | none => upd st.shard_group_lookup shard.id (gid, epoch)
    | some entry =>
      if entry.2 < epoch then upd st.shard_group_lookup shard.id (gid, epoch)
      else st.shard_group_lookup
  let csl :=
    match st.co_shards_lookup shard.collection_id with
    | none => upd st.co_shards_lookup shard.collection_id [shard]
    | some shards =>
      upd st.co_shards_lookup shard.collection_id
        (shards.filter (fun s => s.id != shard.id) ++ [shard])
  { st with shard_group_lookup := sgl, co_shards_lookup := csl }

/-- `State::apply_group_descriptor` (router.rs lines 214-260): build the
replicas map and a fresh group view with no leader, carry an existing
view's leader forward (else fuse a cached pending `GroupState`), overwrite
the view, then fold all listed shards. -/
def State.apply_group_descriptor (st : State) (gd : GroupDesc) : State :=
  let groupState0 : RouterGroupState :=
    ⟨gd.id, gd.epoch, none, replicasMap gd.replicas⟩
  let lsCached :=
    match st.group_id_lookup gd.id with
    | some oldState => (oldState.leader_state, st.cached_group_states)
    | none =>
      match st.cached_group_states gd.id with
      | some cachedState => (leader_state cachedState, updDel st.cached_group_states gd.id)
      | none => (none, st.cached_group_states)
  let groupState := { groupState0 with leader_state := lsCached.1 }
  let st1 := { st with
    group_id_lookup := upd st.group_id_lookup gd.id groupState
    cached_group_states := lsCached.2 }
  gd.shards.foldl (applyShard gd.id gd.epoch) st1

/-- `UpdateEvent` (`watch_response::update_event::Event`). -/
inductive UpdateEvent where
  | node (d : NodeDesc)
  | group (d : GroupDesc)
  | groupStateEvent (d : GroupState)
  | database (d : DatabaseDesc)
  | collection (d : CollectionDesc)

/-- `State::apply_update_event` (router.rs lines 174-212).  Note that in
the Database arm the source removes the key `name` (the new name) from
`db_name_lookup`, not the stored descriptor's old name. -/
def State.apply_update_event (st : State) (ev : UpdateEvent) : State :=
  match ev with
  | .node d => { st with node_id_lookup := upd st.node_id_lookup d.id d.addr }
  | .group d => st.apply_group_descriptor d
  | .groupStateEvent gs =>
    match st.group_id_lookup gs.group_id with
    | some g =>
      { st with
        group_id_lookup := upd st.group_id_lookup gs.group_id
          ({ g with leader_state := leader_state gs }) }
    | none =>
      { st with cached_group_states := upd st.cached_group_states gs.group_id gs }
  | .database db_desc =>
    let id := db_desc.id
    let name := db_desc.name
    let st1 := { st with db_id_lookup := upd st.db_id_lookup id db_desc }
    let st2 :=
      match st.db_id_lookup id with
      | some old_desc =>
        if old_desc.name ≠ name then
          { st1 with db_name_lookup := updSDel st1.db_name_lookup name }
        else st1
      | none => st1
    { st2 with db_name_lookup := updS st2.db_name_lookup name id }
  | .collection co_desc =>
    let id := co_desc.id
    let name := co_desc.name
    let db := co_desc.db
    let st1 := { st with co_id_lookup := upd st.co_id_lookup id co_desc }
    let st2 :=
      match st.co_id_lookup id with
      | some old_desc =>
        if old_desc.name ≠ name then
          { st1 with
            co_name_lookup := fun d n =>
              if d = db ∧ n = old_desc.name then none else st1.co_name_lookup d n }
        else st1
      | none => st1
    { st2 with
      co_name_lookup := fun d n =>
        if d = db ∧ n = name then some id else st2.co_name_lookup d n }

/-- `State::find_group_by_shard` (router.rs lines 163-172). -/
def State.find_group_by_shard (st : State) (shard_id : Nat) :
    Option RouterGroupState :=
  match st.shard_group_lookup shard_id with
  | none => none
  | some ge =>
    match st.group_id_lookup ge.1 with
    | none => none
    | some group_state =>
      if ge.2 < group_state.epoch then none else some group_state

/-- Fold a list of group descriptors into a state. -/
def applyGroups (st : State) (ds : List GroupDesc) : State :=
  ds.foldl State.apply_group_descriptor st

/-! ## Router: find_shard -/

/-- One step of the reflected CRC-32 (IEEE polynomial 0xEDB88320). -/
def crcRound (c : Nat) : Nat :=
  if c % 2 = 1 then Nat.xor (c / 2) 0xEDB88320 else c / 2

def crcRounds : Nat → Nat → Nat
  | 0, c => c
  | k + 1, c => crcRounds k (crcRound c)

/-- `crc32fast::hash` over a byte string: standard CRC-32 (IEEE). -/
def crc32 (bytes : List Nat) : Nat :=
  Nat.xor (bytes.foldl (fun c b => crcRounds 8 (Nat.xor c (b % 256))) 0xFFFFFFFF)
    0xFFFFFFFF

/-- Reasons carried by `Error::NotFound` on the `find_shard` paths; the
`format!` payloads of the source are abstracted to tags. -/
inductive NfReason where
  | shardForKey
  | expiredShardInfo
  | groupForKey
deriving DecidableEq, Repr

/-- Outcome of `Router::find_shard`: success, a typed `NotFound`, or a
Rust panic (`unwrap` on `None`, or the division by zero in `crc % slots`
when `slots == 0`). -/
inductive FindOutcome where
  | ok (g : RouterGroupState) (s : ShardDesc)
  | notFound (r : NfReason)
  | crash

/-- `shards.iter().find(|s| ...)` of the hash arm (router.rs lines
94-104): scan for the first shard whose hash partition has the wanted
slot id; the closure `unwrap`s each visited shard's partition, so a
missing partition panics. -/
def findHashShard (slot : Nat) : List ShardDesc → Option (Option ShardDesc)
  | [] => some none
  | s :: rest =>
    match s.partition with
    | none => none
    | some (.hash p _) =>
      if p = slot then some (some s) else findHashShard slot rest
    | some (.range _ _) => findHashShard slot rest

/-- The range-partition loop of `Router::find_shard` (router.rs lines
118-134): skip shards whose `start > key`; accept the first remaining
shard with `end < key || end.is_empty()` (the source's comparison), and
look up its group. -/
def findRangeShard (st : State) (key : List Nat) : List ShardDesc → FindOutcome
  | [] => .notFound .shardForKey
  | shard :: rest =>
    match shard.partition with
    | some (.range start endKey) =>
      if key < start then findRangeShard st key rest
      else if endKey < key ∨ endKey = [] then
        match st.find_group_by_shard shard.id with
        | some group_state => .ok group_state shard
        | none => .notFound .groupForKey
      else findRangeShard st key rest
    | _ => findRangeShard st key rest

/-- `Router::find_shard` (router.rs lines 71-136).  Hash partitions:
compute `crc32(key) % slots` (division by zero panics), require the
materialised shard list length to equal `slots`, find the shard for the
slot (`unwrap` panics if absent), and resolve its group.  Any other
collection partition: the range loop. -/
def Router.find_shard (st : State) (desc : CollectionDesc) (key : List Nat) :
    FindOutcome :=
  match desc.partition with
  | some (.hash slots) =>
    if slots = 0 then .crash
    else
      let slot := crc32 key % slots
      match st.co_shards_lookup desc.id with
      | none => .notFound .shardForKey
      | some shards =>
        if slots ≠ shards.length then .notFound .expiredShardInfo
        else
          match findHashShard slot shards with
          | none => .crash
          | some none => .crash
          | some (some shard) =>
            match st.find_group_by_shard shard.id with
            | some group_state => .ok group_state shard
            | none => .notFound .groupForKey
  | _ =>
    match st.co_shards_lookup desc.id with
    | none => .notFound .shardForKey
    | some shards => findRangeShard st key shards

/-! ## Router: the projection used by routing queries (for the
delivery-order claim) -/

/-- The part of `State` that `find_group_by_shard` reads and that
`apply_group_descriptor` both reads and writes. -/
@[ext]
structure RouteState where
  shard_group_lookup : Nat → Option (Nat × Nat)
  group_id_lookup : Nat → Option RouterGroupState
  cached_group_states : Nat → Option GroupState

def State.proj (st : State) : RouteState :=
  ⟨st.shard_group_lookup, st.group_id_lookup, st.cached_group_states⟩

/-- `applyShard` restricted to `shard_group_lookup`. -/
def applyShardR (gid epoch : Nat) (rs : RouteState) (shard : ShardDesc) :
    RouteState :=
  let sgl :=
    match rs.shard_group_lookup shard.id with
    | none => upd rs.shard_group_lookup shard.id (gid, epoch)
    | some entry =>
      if entry.2 < epoch then upd rs.shard_group_lookup shard.id (gid, epoch)
      else rs.shard_group_lookup
  { rs with shard_group_lookup := sgl }

/-- `State.apply_group_descriptor` restricted to the routing projection. -/
def applyGroupR (rs : RouteState) (gd : GroupDesc) : RouteState :=
  let groupState0 : RouterGroupState :=
    ⟨gd.id, gd.epoch, none, replicasMap gd.replicas⟩
  let lsCached :=
    match rs.group_id_lookup gd.id with
    | some oldState => (oldState.leader_state, rs.cached_group_states)
    | none =>
      match rs.cached_group_states gd.id with
      | some cachedState => (leader_state cachedState, updDel rs.cached_group_states gd.id)
      | none => (none, rs.cached_group_states)
  let groupState := { groupState0 with leader_state := lsCached.1 }
  let rs1 : RouteState :=
    ⟨rs.shard_group_lookup, upd rs.group_id_lookup gd.id groupState, lsCached.2⟩
  gd.shards.foldl (applyShardR gd.id gd.epoch) rs1

/-- `State.find_group_by_shard` expressed on the routing projection. -/
def RouteState.findGroup (rs : RouteState) (shard_id : Nat) :
    Option RouterGroupState :=
  match rs.shard_group_lookup shard_id with
  | none => none
  | some ge =>
    match rs.group_id_lookup ge.1 with
    | none => none
    | some group_state =>
      if ge.2 < group_state.epoch then none else some group_state

/-- The `shard_group_lookup` part of one `applyShard` step. -/
def sglStep (gid epoch : Nat) (m : Nat → Option (Nat × Nat)) (shard : ShardDesc) :
    Nat → Option (Nat × Nat) :=
  match m shard.id with
  | none => upd m shard.id (gid, epoch)
  | some entry => if entry.2 < epoch then upd m shard.id (gid, epoch) else m

/-! ## Spec-side definitions used to state claims -/

/-- Maximum of two optional epochs (absent = no observation). -/
def omax2 : Option Nat → Option Nat → Option Nat
  | none, b => b
  | some a, none => some a
  | some a, some b => some (max a b)

/-- The maximum epoch among the descriptors of the list whose shard list
contains shard `s` (`none` when no descriptor listed `s`). -/
def maxEpochFor (s : Nat) : List GroupDesc → Option Nat
  | [] => none
  | d :: ds =>
    omax2 (if d.shards.any (fun sh => sh.id == s) then some d.epoch else none)
      (maxEpochFor s ds)

/-- The epoch recorded for shard `s`, defaulting to 0 when absent. -/
def sgEpoch (st : State) (s : Nat) : Nat :=
  ((st.shard_group_lookup s).map Prod.snd).getD 0

/-- The leader the spec derives from a list of `(replica_id, term)`
candidates: the one with the highest term, the last one in report order on
ties; none when there is no candidate. -/
def leaderChoice : List (Nat × Nat) → Option (Nat × Nat)
  | [] => none
  | c :: rest =>
    match leaderChoice rest with
    | none => some c
    | some b => if b.2 < c.2 then some c else some b

/-- The slot id of a shard's hash partition, if it has one. -/
def slotIdOf (sh : ShardDesc) : Option Nat :=
  match sh.partition with
  | some (.hash sid _) => some sid
  | _ => none

/-! ## SST build-shape definitions used by the round-trip proofs -/

/-- The index entries the builder accumulates for a run of data blocks that
were written starting at segment offset `k`: per block, the internal key of
its last entry and the encoded handle. -/
def indexEntriesFrom (k : Nat) : List (List Entry) → List Entry
  | [] => []
  | blk :: rest =>
    ⟨(blk.getLastD dummyEntry).ts, (blk.getLastD dummyEntry).key,
      BlockHandle.encode ⟨k, blk.length⟩⟩ :: indexEntriesFrom (k + 1) rest

/-- Shape of a finished table file: the data blocks partition the input,
are non-empty, and are followed by the index block and the footer. -/
def TableShape (es : List Entry) (dbs : List (List Entry)) (segs : List Segment) : Prop :=
  dbs.flatten = es ∧ dbs ≠ [] ∧ (∀ blk ∈ dbs, blk ≠ []) ∧
    segs = dbs.map Segment.block ++
      [Segment.block (indexEntriesFrom 0 dbs),
       Segment.raw (BlockHandle.encode ⟨dbs.length, (indexEntriesFrom 0 dbs).length⟩)]

/-- Invariant of the builder state after feeding a prefix `processed`:
`dbs` are the flushed data blocks. -/
structure BuildInv (processed : List Entry) (b : SstBuilder) (dbs : List (List Entry)) : Prop where
  seg : b.file.segments = dbs.map Segment.block
  flat : dbs.flatten ++ b.dataBlock.entries = processed
  ne : ∀ blk ∈ dbs, blk ≠ []
  idx : b.indexBlock.entries = indexEntriesFrom 0 dbs
  last : processed ≠ [] → ikOf (processed.getLastD dummyEntry) = (b.lastTs, b.lastKey)
  err : b.error = false

/-- Strict InternalKey sortedness of an entry sequence. -/
def IkSorted (es : List Entry) : Prop :=
  List.Pairwise (fun a b => ikLt (ikOf a) (ikOf b)) es

/-! # Theorems -/

/-! ## Map and order helper lemmas -/

theorem upd_self {V : Type} (m : Nat → Option V) (k : Nat) (v : V) :
    upd m k v k = some v := by
  simp [upd]

theorem upd_other {V : Type} (m : Nat → Option V) (k : Nat) (v : V) (q : Nat)
    (h : q ≠ k) : upd m k v q = m q := by
  simp [upd, h]

theorem updDel_other {V : Type} (m : Nat → Option V) (k q : Nat) (h : q ≠ k) :
    updDel m k q = m q := by
  simp [updDel, h]

theorem ikLt_irrefl (a : Nat × List Nat) : ¬ ikLt a a := by
  rintro (h | ⟨-, h⟩) <;> exact lt_irrefl _ h

theorem ikLt_trans {a b c : Nat × List Nat} (h1 : ikLt a b) (h2 : ikLt b c) :
    ikLt a c := by
  rcases h1 with h1 | ⟨h1e, h1t⟩ <;> rcases h2 with h2 | ⟨h2e, h2t⟩
  · exact Or.inl (lt_trans h1 h2)
  · exact Or.inl (h2e ▸ h1)
  · exact Or.inl (h1e ▸ h2)
  · exact Or.inr ⟨h1e.trans h2e, lt_trans h2t h1t⟩

theorem ikLt_total {a b : Nat × List Nat} (h : a ≠ b) : ikLt a b ∨ ikLt b a := by
  rcases lt_trichotomy a.2 b.2 with hk | hk | hk
  · exact Or.inl (Or.inl hk)
  · rcases lt_trichotomy a.1 b.1 with ht | ht | ht
    · exact Or.inr (Or.inr ⟨hk.symm, ht⟩)
    · exact absurd (Prod.ext ht hk) h
    · exact Or.inl (Or.inr ⟨hk, ht⟩)
  · exact Or.inr (Or.inl hk)

theorem addOk_iff_ikLt (lt ts : Nat) (lk k : List Nat) :
    addOk lt lk ts k ↔ ikLt (lt, lk) (ts, k) := by
  unfold addOk ikLt
  constructor
  · rintro (h | ⟨he, ht⟩)
    · exact Or.inl h
    · exact Or.inr ⟨he.symm, ht⟩
  · rintro (h | ⟨he, ht⟩)
    · exact Or.inl h
    · exact Or.inr ⟨he.symm, ht⟩

theorem validFrom_sorted :
    ∀ (es : List Entry) (lt : Nat) (lk : List Nat), validFrom lt lk es = true →
      IkSorted es ∧ ∀ e ∈ es, ikLt (lt, lk) (ikOf e) := by
  intro es
  induction es with
  | nil => intro lt lk _; exact ⟨List.Pairwise.nil, by simp⟩
  | cons e rest ih =>
    intro lt lk h
    simp only [validFrom, Bool.and_eq_true, decide_eq_true_eq] at h
    obtain ⟨hhead, htail⟩ := h
    obtain ⟨hsorted, hall⟩ := ih e.ts e.key htail
    have hlt : ikLt (lt, lk) (ikOf e) := (addOk_iff_ikLt lt e.ts lk e.key).mp hhead
    refine ⟨List.Pairwise.cons (fun b hb => ?_) hsorted, ?_⟩
    · exact hall b hb
    · intro x hx
      rcases List.mem_cons.mp hx with rfl | hx
      · exact hlt
      · exact ikLt_trans hlt (hall x hx)

/-! ## Router epoch lemmas (claim C3) -/

theorem omax2_none_right (a : Option Nat) : omax2 a none = a := by
  cases a <;> rfl

theorem omax2_assoc (a b c : Option Nat) :
    omax2 (omax2 a b) c = omax2 a (omax2 b c) := by
  cases a <;> cases b <;> cases c <;> simp [omax2, Nat.max_assoc]

theorem omax2_self_right (e : Nat) (b : Option Nat) :
    omax2 (some e) (omax2 (some e) b) = omax2 (some e) b := by
  cases b <;> simp [omax2, Nat.max_assoc]

theorem applyShard_sgl (g e : Nat) (st : State) (sh : ShardDesc) :
    (applyShard g e st sh).shard_group_lookup = sglStep g e st.shard_group_lookup sh := rfl

theorem sglStep_snd (g e : Nat) (m : Nat → Option (Nat × Nat)) (sh : ShardDesc) (s : Nat) :
    ((sglStep g e m sh) s).map Prod.snd =
      if sh.id = s then omax2 ((m s).map Prod.snd) (some e)
      else (m s).map Prod.snd := by
  unfold sglStep
  by_cases hid : sh.id = s
  · subst hid
    cases hm : m sh.id with
    | none => simp [hm, upd_self, omax2]
    | some entry =>
      by_cases hlt : entry.2 < e
      · simp [hm, hlt, upd_self, omax2, Nat.max_eq_right (le_of_lt hlt)]
      · simp [hm, hlt, omax2, Nat.max_eq_left (Nat.le_of_not_lt hlt)]
  · have hid' : s ≠ sh.id := fun h => hid h.symm
    cases hm : m sh.id with
    | none => simp [hid, upd_other _ _ _ _ hid']
    | some entry =>
      by_cases hlt : entry.2 < e
      · simp [hm, hlt, hid, upd_other _ _ _ _ hid']
      · simp [hm, hlt, hid]

theorem foldShards_sgl_snd (g e s : Nat) :
    ∀ (shards : List ShardDesc) (st : State),
      (((shards.foldl (applyShard g e) st)).shard_group_lookup s).map Prod.snd =
        omax2 ((st.shard_group_lookup s).map Prod.snd)
          (if shards.any (fun sh => sh.id == s) then some e else none) := by
  intro shards
  induction shards with
  | nil => intro st; simp [omax2_none_right]
  | cons sh rest ih =>
    intro st
    rw [List.foldl_cons, ih, applyShard_sgl, sglStep_snd]
    by_cases hid : sh.id = s
    · simp only [List.any_cons, hid, beq_self_eq_true, Bool.true_or, if_true]
      rw [omax2_assoc]
      by_cases hrest : rest.any (fun sh => sh.id == s) = true
      · rw [if_pos hrest]
        cases hm : (st.shard_group_lookup s).map Prod.snd <;>
          simp [omax2, Nat.max_self, Nat.max_assoc]
      · rw [if_neg hrest, omax2_none_right]
    · have : (sh.id == s) = false := beq_false_of_ne hid
      simp only [List.any_cons, this, Bool.false_or, if_neg hid]

theorem apply_group_sgl_snd (st : State) (d : GroupDesc) (s : Nat) :
    ((st.apply_group_descriptor d).shard_group_lookup s).map Prod.snd =
      omax2 ((st.shard_group_lookup s).map Prod.snd)
        (if d.shards.any (fun sh => sh.id == s) then some d.epoch else none) := by
  unfold State.apply_group_descriptor
  exact foldShards_sgl_snd d.id d.epoch s d.shards _

theorem applyGroups_sgl_snd (s : Nat) :
    ∀ (ds : List GroupDesc) (st : State),
      (((applyGroups st ds)).shard_group_lookup s).map Prod.snd =
        omax2 ((st.shard_group_lookup s).map Prod.snd) (maxEpochFor s ds) := by
  intro ds
  induction ds with
  | nil => intro st; simp [applyGroups, maxEpochFor, omax2_none_right]
  | cons d rest ih =>
    intro st
    show (((applyGroups (st.apply_group_descriptor d) rest)).shard_group_lookup s).map Prod.snd = _
    rw [ih, apply_group_sgl_snd, maxEpochFor, omax2_assoc]

/-- Claim C3: starting from the default state, after any sequence of group
descriptor events the epoch stored in `shard_group_lookup[s]` is exactly the
maximum epoch among the applied descriptors whose shard list contained `s`
(and no entry exists when none listed `s`); moreover applying any single
group descriptor to any state never decreases the recorded epoch of any
shard. -/
theorem router_epoch_is_max :
    (∀ (ds : List GroupDesc) (s : Nat),
      (((applyGroups State.default ds)).shard_group_lookup s).map Prod.snd =
        maxEpochFor s ds) ∧
    (∀ (st : State) (d : GroupDesc) (s : Nat),
      sgEpoch st s ≤ sgEpoch (st.apply_group_descriptor d) s) := by
  constructor
  · intro ds s
    rw [applyGroups_sgl_snd]
    rfl
  · intro st d s
    unfold sgEpoch
    rw [apply_group_sgl_snd]
    cases hm : (st.shard_group_lookup s).map Prod.snd with
    | none => simp
    | some e0 =>
      cases hx : (if d.shards.any (fun sh => sh.id == s) then some d.epoch else none) with
      | none => simp [omax2]
      | some e => simp [omax2, Option.getD, Nat.le_max_left]

/-! ## find_group_by_shard (claim C4) and the concrete code-bug claims -/

/-- Claim C4: `find_group_by_shard(s)` returns none exactly when the shard
has no `shard_group_lookup` entry, or the recorded group has no
`group_id_lookup` entry, or the materialised group view's epoch is strictly
greater than the epoch recorded alongside `s`; otherwise it returns that
view.  Concretely, after `desc(group=1, epoch=1, shards=[1])`,
`desc(group=2, epoch=1, shards=[])`, then
`desc(group=1, epoch=1+(1<<32), shards=[])`, `find_group_by_shard 1` is
none. -/
theorem find_group_by_shard_correct :
    (∀ (st : State) (s : Nat),
      (st.find_group_by_shard s = none ↔
        st.shard_group_lookup s = none ∨
        ∃ g e, st.shard_group_lookup s = some (g, e) ∧
          (st.group_id_lookup g = none ∨
           ∃ v, st.group_id_lookup g = some v ∧ e < v.epoch)) ∧
      (∀ g e v, st.shard_group_lookup s = some (g, e) →
        st.group_id_lookup g = some v → ¬ e < v.epoch →
        st.find_group_by_shard s = some v)) ∧
    (applyGroups State.default
      [⟨1, 1, [⟨1, 1, some (.hash 1 1)⟩], []⟩, ⟨2, 1, [], []⟩,
       ⟨1, 1 + 2 ^ 32, [], []⟩]).find_group_by_shard 1 = none := by
  constructor
  · intro st s
    constructor
    · cases hs : st.shard_group_lookup s with
      | none => simp [State.find_group_by_shard, hs]
      | some ge =>
        obtain ⟨g0, e0⟩ := ge
        cases hg : st.group_id_lookup g0 with
        | none =>
          refine iff_of_true (by simp [State.find_group_by_shard, hs, hg]) ?_
          exact Or.inr ⟨g0, e0, rfl, Or.inl hg⟩
        | some v =>
          by_cases he : e0 < v.epoch
          · refine iff_of_true (by simp [State.find_group_by_shard, hs, hg, he]) ?_
            exact Or.inr ⟨g0, e0, rfl, Or.inr ⟨v, hg, he⟩⟩
          · refine iff_of_false (by simp [State.find_group_by_shard, hs, hg, he]) ?_
            rintro (hnone | ⟨g, e, hge, hrest⟩)
            · exact Option.noConfusion hnone
            · injection hge with hge
              injection hge with h1 h2
              subst h1
              subst h2
              rcases hrest with hgn | ⟨v2, hv2, he2⟩
              · rw [hg] at hgn; exact Option.noConfusion hgn
              · rw [hg] at hv2
                injection hv2 with hv2
                subst hv2
                exact he he2
    · intro g e v hs hg he
      simp [State.find_group_by_shard, hs, hg, he]
  · rfl

/-- Claim C6 (code bug): for the range-partitioned collection whose single
shard covers `[ [97], [98] )`, the key `[97]` satisfies the specified
membership test (`start ≤ key` and `end > key`), yet `find_shard` returns
`NotFound` because the source compares `end < key` instead of
`end > key`. -/
theorem find_shard_range_bug :
    ([97] : List Nat) ≤ [97] ∧ ([97] : List Nat) < [98] ∧
    Router.find_shard
      { State.default with
        co_shards_lookup :=
          upd State.default.co_shards_lookup 1 [⟨1, 1, some (.range [97] [98])⟩] }
      ⟨1, "c", 1, none⟩ [97] = .notFound .shardForKey :=
  ⟨le_refl _, by decide, rfl⟩

/-- Claim C7 (code bug): renaming database 1 from "a" to "b" leaves the
stale mapping `"a" -> 1` in `db_name_lookup`, because the source removes
the new name instead of the old one; the claim requires the old name to no
longer resolve. -/
theorem database_rename_bug :
    (State.apply_update_event
      (State.apply_update_event State.default (.database ⟨1, "a"⟩))
      (.database ⟨1, "b"⟩)).db_name_lookup "a" = some 1 ∧
    (State.apply_update_event
      (State.apply_update_event State.default (.database ⟨1, "a"⟩))
      (.database ⟨1, "b"⟩)).db_name_lookup "b" = some 1 ∧
    (State.apply_update_event
      (State.apply_update_event State.default (.database ⟨1, "a"⟩))
      (.database ⟨1, "b"⟩)).db_id_lookup 1 = some ⟨1, "b"⟩ := by
  refine ⟨?_, ?_, ?_⟩ <;> decide

/-! ## Leader derivation (claim C10) -/

theorem getLast?_cons_ne {α : Type} (y : α) (L : List α) (h : L ≠ []) :
    (y :: L).getLast? = L.getLast? := by
  cases L with
  | nil => exact absurd rfl h
  | cons a t => simp [List.getLast?_cons_cons]

theorem leaderChoice_eq_none (l : List (Nat × Nat)) :
    leaderChoice l = none ↔ l = [] := by
  cases l with
  | nil => simp [leaderChoice]
  | cons c rest =>
    simp only [leaderChoice]
    cases h : leaderChoice rest with
    | none => simp
    | some b => by_cases hb : b.2 < c.2 <;> simp [hb]

theorem leaderChoice_max :
    ∀ (l : List (Nat × Nat)) (b : Nat × Nat), leaderChoice l = some b →
      b ∈ l ∧ ∀ q ∈ l, q.2 ≤ b.2 := by
  intro l
  induction l with
  | nil => intro b h; simp [leaderChoice] at h
  | cons c rest ih =>
    intro b h
    simp only [leaderChoice] at h
    cases hr : leaderChoice rest with
    | none =>
      rw [hr] at h
      injection h with h
      subst h
      have hre : rest = [] := (leaderChoice_eq_none rest).mp hr
      subst hre
      exact ⟨by simp, by simp⟩
    | some b0 =>
      rw [hr] at h
      dsimp only at h
      obtain ⟨hmem, hmax⟩ := ih b0 hr
      by_cases hb : b0.2 < c.2
      · rw [if_pos hb] at h
        injection h with h
        subst h
        refine ⟨List.mem_cons_self _ _, ?_⟩
        intro q hq
        rcases List.mem_cons.mp hq with rfl | hq
        · exact le_refl _
        · exact le_of_lt (lt_of_le_of_lt (hmax q hq) hb)
      · rw [if_neg hb] at h
        injection h with h
        subst h
        refine ⟨List.mem_cons_of_mem _ hmem, ?_⟩
        intro q hq
        rcases List.mem_cons.mp hq with rfl | hq
        · exact Nat.le_of_not_lt hb
        · exact hmax q hq

theorem orderedInsert_getLast? (x : Nat × Nat) :
    ∀ (l : List (Nat × Nat)),
      (List.orderedInsert (fun a b : Nat × Nat => a.2 ≤ b.2) x l).getLast? =
        if ∀ y ∈ l, y.2 < x.2 then some x else l.getLast? := by
  intro l
  induction l with
  | nil => simp [List.orderedInsert]
  | cons y t ih =>
    simp only [List.orderedInsert]
    by_cases hxy : x.2 ≤ y.2
    · rw [if_pos hxy]
      have hcond : ¬ ∀ z ∈ y :: t, z.2 < x.2 := by
        intro hall
        exact absurd hxy (not_le.mpr (hall y (List.mem_cons_self y t)))
      rw [if_neg hcond, getLast?_cons_ne x (y :: t) (by simp)]
    · rw [if_neg hxy]
      have hne : List.orderedInsert (fun a b : Nat × Nat => a.2 ≤ b.2) x t ≠ [] := by
        intro hnil
        have := congrArg List.length hnil
        rw [List.orderedInsert_length] at this
        simp at this
      rw [getLast?_cons_ne y _ hne, ih]
      by_cases htall : ∀ z ∈ t, z.2 < x.2
      · rw [if_pos htall]
        have : ∀ z ∈ y :: t, z.2 < x.2 := by
          intro z hz
          rcases List.mem_cons.mp hz with rfl | hz
          · exact Nat.lt_of_not_le hxy
          · exact htall z hz
        rw [if_pos this]
      · rw [if_neg htall]
        have hcond : ¬ ∀ z ∈ y :: t, z.2 < x.2 := by
          intro hall
          exact htall (fun z hz => hall z (List.mem_cons_of_mem y hz))
        rw [if_neg hcond]
        push_neg at htall
        obtain ⟨z, hz, -⟩ := htall
        exact (getLast?_cons_ne y t (List.ne_nil_of_mem hz)).symm

theorem insertionSort_getLast? :
    ∀ l : List (Nat × Nat),
      (List.insertionSort (fun a b : Nat × Nat => a.2 ≤ b.2) l).getLast? =
        leaderChoice l := by
  intro l
  induction l with
  | nil => rfl
  | cons c rest ih =>
    rw [List.insertionSort, orderedInsert_getLast?]
    by_cases hall :
        ∀ y ∈ List.insertionSort (fun a b : Nat × Nat => a.2 ≤ b.2) rest, y.2 < c.2
    · rw [if_pos hall]
      simp only [leaderChoice]
      cases hr : leaderChoice rest with
      | none => rfl
      | some b =>
        have hbmem : b ∈ List.insertionSort (fun a b : Nat × Nat => a.2 ≤ b.2) rest :=
          ((List.perm_insertionSort _ rest).mem_iff).mpr (leaderChoice_max rest b hr).1
        dsimp only
        rw [if_pos (hall b hbmem)]
    · rw [if_neg hall, ih]
      simp only [leaderChoice]
      cases hr : leaderChoice rest with
      | none =>
        have hre : rest = [] := (leaderChoice_eq_none rest).mp hr
        subst hre
        exact absurd (by intro y hy; cases hy) hall
      | some b =>
        push_neg at hall
        obtain ⟨y, hy, hyc⟩ := hall
        have hymem : y ∈ rest := ((List.perm_insertionSort _ rest).mem_iff).mp hy
        have hmax := (leaderChoice_max rest b hr).2 y hymem
        have hbc : ¬ b.2 < c.2 := by omega
        dsimp only
        rw [if_neg hbc]

/-- Claim C10: when a `GroupState` carries no `leader_id`, the derived
leader is none even if some replica has the Leader role; when `leader_id`
is present, the derived leader is the Leader-role replica with the highest
term (the last such replica in report order on ties), independent of the
value of `leader_id`, and none exactly when no replica has the Leader
role. -/
theorem leader_state_spec (gs : GroupState) :
    (gs.leader_id = none → leader_state gs = none) ∧
    (∀ lid, gs.leader_id = some lid →
      leader_state gs = leaderChoice (leaderCandidates gs) ∧
      (leader_state gs = none ↔ leaderCandidates gs = []) ∧
      ∀ p, leader_state gs = some p →
        p ∈ leaderCandidates gs ∧ ∀ q ∈ leaderCandidates gs, q.2 ≤ p.2) := by
  constructor
  · intro h
    simp [leader_state, h]
  · intro lid h
    have hls : leader_state gs = leaderChoice (leaderCandidates gs) := by
      simp only [leader_state, h]
      exact insertionSort_getLast? (leaderCandidates gs)
    refine ⟨hls, ?_, ?_⟩
    · rw [hls]
      exact leaderChoice_eq_none _
    · intro p hp
      rw [hls] at hp
      exact leaderChoice_max _ p hp

/-- Witness for claim C10 at a concrete `GroupState`: `leader_id = 3` with
leaders at terms 5, 7, 7 derives `(3, 7)` — the last highest-term leader. -/
theorem leader_state_spec_witness :
    (⟨1, some 3, [⟨1, 5, 2⟩, ⟨2, 7, 2⟩, ⟨3, 7, 2⟩, ⟨4, 9, 0⟩]⟩ : GroupState).leader_id
        = some 3 ∧
    (leader_state ⟨1, some 3, [⟨1, 5, 2⟩, ⟨2, 7, 2⟩, ⟨3, 7, 2⟩, ⟨4, 9, 0⟩]⟩ =
        leaderChoice (leaderCandidates ⟨1, some 3, [⟨1, 5, 2⟩, ⟨2, 7, 2⟩, ⟨3, 7, 2⟩, ⟨4, 9, 0⟩]⟩) ∧
      (leader_state ⟨1, some 3, [⟨1, 5, 2⟩, ⟨2, 7, 2⟩, ⟨3, 7, 2⟩, ⟨4, 9, 0⟩]⟩ = none ↔
        leaderCandidates ⟨1, some 3, [⟨1, 5, 2⟩, ⟨2, 7, 2⟩, ⟨3, 7, 2⟩, ⟨4, 9, 0⟩]⟩ = []) ∧
      ∀ p, leader_state ⟨1, some 3, [⟨1, 5, 2⟩, ⟨2, 7, 2⟩, ⟨3, 7, 2⟩, ⟨4, 9, 0⟩]⟩ = some p →
        p ∈ leaderCandidates ⟨1, some 3, [⟨1, 5, 2⟩, ⟨2, 7, 2⟩, ⟨3, 7, 2⟩, ⟨4, 9, 0⟩]⟩ ∧
        ∀ q ∈ leaderCandidates ⟨1, some 3, [⟨1, 5, 2⟩, ⟨2, 7, 2⟩, ⟨3, 7, 2⟩, ⟨4, 9, 0⟩]⟩,
          q.2 ≤ p.2) :=
  ⟨rfl, (leader_state_spec ⟨1, some 3, [⟨1, 5, 2⟩, ⟨2, 7, 2⟩, ⟨3, 7, 2⟩, ⟨4, 9, 0⟩]⟩).2 3 rfl⟩

/-! ## Hash shard locator (claim C9) -/

theorem findHashShard_found (slot : Nat) :
    ∀ shards : List ShardDesc,
      (∀ sh ∈ shards, slotIdOf sh ≠ none) →
      (∃ sh ∈ shards, slotIdOf sh = some slot) →
      ∃ shFound, findHashShard slot shards = some (some shFound) ∧
        shFound ∈ shards ∧ slotIdOf shFound = some slot := by
  intro shards
  induction shards with
  | nil =>
    rintro _ ⟨sh, hmem, _⟩
    cases hmem
  | cons s rest ih =>
    rintro hall ⟨sh, hmem, hslot⟩
    have hs := hall s (List.mem_cons_self s rest)
    obtain ⟨sid, ss, hp⟩ :
        ∃ sid ss, s.partition = some (.hash sid ss) := by
      cases hpart : s.partition with
      | none => rw [slotIdOf, hpart] at hs; exact absurd rfl hs
      | some p =>
        cases p with
        | hash sid ss => exact ⟨sid, ss, rfl⟩
        | range a b => rw [slotIdOf, hpart] at hs; exact absurd rfl hs
    by_cases hsid : sid = slot
    · refine ⟨s, ?_, List.mem_cons_self s rest, ?_⟩
      · simp [findHashShard, hp, hsid]
      · simp [slotIdOf, hp, hsid]
    · have hrest : ∃ sh ∈ rest, slotIdOf sh = some slot := by
        rcases List.mem_cons.mp hmem with rfl | hmem2
        · rw [slotIdOf, hp] at hslot
          injection hslot with hs2
          exact absurd hs2 hsid
        · exact ⟨sh, hmem2, hslot⟩
      obtain ⟨f, hf, hfmem, hfslot⟩ :=
        ih (fun x hx => hall x (List.mem_cons_of_mem _ hx)) hrest
      refine ⟨f, ?_, List.mem_cons_of_mem _ hfmem, hfslot⟩
      simp [findHashShard, hp, hsid, hf]

/-- Claim C9 (amended): for a hash-partitioned collection with `slots > 0`
whose materialised shard list has exactly `slots` shards, all carrying hash
partitions whose slot ids cover every slot exactly once, `find_shard`
resolves every key to the unique shard whose `slot_id` is
`crc32(key) % slots`, without panicking (returning it with its group view,
or the group-lookup `NotFound` when the shard's group is not routable);
when the list length differs from `slots` it reports the stale-shard-info
error instead. -/
theorem find_shard_hash_total (st : State) (desc : CollectionDesc) (slots : Nat)
    (key : List Nat) (shards : List ShardDesc)
    (hp : desc.partition = some (.hash slots))
    (h0 : slots ≠ 0)
    (hl : st.co_shards_lookup desc.id = some shards) :
    (shards.length ≠ slots → Router.find_shard st desc key = .notFound .expiredShardInfo) ∧
    (shards.length = slots →
      (∀ sh ∈ shards, slotIdOf sh ≠ none) →
      (∀ k, k < slots → ∃ sh ∈ shards, slotIdOf sh = some k) →
      (∀ sh1 ∈ shards, ∀ sh2 ∈ shards,
        slotIdOf sh1 = slotIdOf sh2 → slotIdOf sh1 ≠ none → sh1 = sh2) →
      ∃ shFound, shFound ∈ shards ∧ slotIdOf shFound = some (crc32 key % slots) ∧
        (∀ sh2 ∈ shards, slotIdOf sh2 = some (crc32 key % slots) → sh2 = shFound) ∧
        Router.find_shard st desc key ≠ .crash ∧
        ((∃ g, st.find_group_by_shard shFound.id = some g ∧
            Router.find_shard st desc key = .ok g shFound) ∨
         (st.find_group_by_shard shFound.id = none ∧
            Router.find_shard st desc key = .notFound .groupForKey))) := by
  have hfs : Router.find_shard st desc key =
      (if slots ≠ shards.length then FindOutcome.notFound .expiredShardInfo
       else
        match findHashShard (crc32 key % slots) shards with
        | none => FindOutcome.crash
        | some none => FindOutcome.crash
        | some (some shard) =>
          match st.find_group_by_shard shard.id with
          | some group_state => FindOutcome.ok group_state shard
          | none => FindOutcome.notFound .groupForKey) := by
    simp only [Router.find_shard, hp, if_neg h0, hl]
  constructor
  · intro hlen
    rw [hfs, if_pos (fun h => hlen h.symm)]
  · intro hlen hall hcov huniq
    have hslot : crc32 key % slots < slots := Nat.mod_lt _ (Nat.pos_of_ne_zero h0)
    obtain ⟨shFound, hfind, hmem, hsid⟩ :=
      findHashShard_found (crc32 key % slots) shards hall (hcov _ hslot)
    have hne : ¬ slots ≠ shards.length := by
      rw [hlen]
      exact fun h => h rfl
    refine ⟨shFound, hmem, hsid, ?_, ?_, ?_⟩
    · intro sh2 hmem2 hsid2
      exact huniq sh2 hmem2 shFound hmem (by rw [hsid2, hsid]) (by rw [hsid2]; exact Option.some_ne_none _)
    · rw [hfs, if_neg hne, hfind]
      dsimp only
      cases hg : st.find_group_by_shard shFound.id with
      | some g =>
        dsimp only
        intro hc
        exact FindOutcome.noConfusion hc
      | none =>
        dsimp only
        intro hc
        exact FindOutcome.noConfusion hc
    · rw [hfs, if_neg hne, hfind]
      dsimp only
      cases hg : st.find_group_by_shard shFound.id with
      | some g => exact Or.inl ⟨g, rfl, rfl⟩
      | none => exact Or.inr ⟨rfl, rfl⟩

/-- Counterexample to claim C9 as stated: a hash collection with
`slots = 1` and a single (range-partitioned) shard, so the list length
equals the slot count, yet `find_shard` panics: the `find` closure matches
no shard and the source `unwrap`s its result. -/
theorem find_shard_hash_crash :
    ([⟨7, 1, some (.range [] [])⟩] : List ShardDesc).length = 1 ∧
    Router.find_shard
      { State.default with
        co_shards_lookup :=
          upd State.default.co_shards_lookup 1 [⟨7, 1, some (.range [] [])⟩] }
      ⟨1, "c", 1, some (.hash 1)⟩ [97] = .crash :=
  ⟨rfl, rfl⟩

/-- Witness for the amended claim C9 at a concrete routable state: one
shard covering the single slot; `find_shard` does not panic. -/
theorem find_shard_hash_total_witness :
    ([⟨7, 1, some (.hash 0 1)⟩] : List ShardDesc).length = 1 ∧
    Router.find_shard
      { State.default with
        co_shards_lookup := upd State.default.co_shards_lookup 1 [⟨7, 1, some (.hash 0 1)⟩]
        shard_group_lookup := upd State.default.shard_group_lookup 7 (9, 5)
        group_id_lookup := upd State.default.group_id_lookup 9 ⟨9, 5, none, fun _ => none⟩ }
      ⟨1, "c", 1, some (.hash 1)⟩ [97] ≠ .crash := by
  refine ⟨rfl, ?_⟩
  obtain ⟨sh, hmem, hsid, huniq, hnc, hres⟩ :=
    (find_shard_hash_total
      { State.default with
        co_shards_lookup := upd State.default.co_shards_lookup 1 [⟨7, 1, some (.hash 0 1)⟩]
        shard_group_lookup := upd State.default.shard_group_lookup 7 (9, 5)
        group_id_lookup := upd State.default.group_id_lookup 9 ⟨9, 5, none, fun _ => none⟩ }
      ⟨1, "c", 1, some (.hash 1)⟩ 1 [97] [⟨7, 1, some (.hash 0 1)⟩]
      rfl (by decide) rfl).2 rfl (by decide) (by decide) (by decide)
  exact hnc

/-! ## Delivery-order behaviour of the router (claim C5) -/

theorem upd_comm {V : Type} (m : Nat → Option V) (k1 k2 : Nat) (v1 v2 : V)
    (h : k1 ≠ k2) : upd (upd m k1 v1) k2 v2 = upd (upd m k2 v2) k1 v1 := by
  funext q
  by_cases h1 : q = k1
  · subst h1
    rw [upd_other _ _ _ _ h, upd_self, upd_self]
  · by_cases h2 : q = k2
    · subst h2
      rw [upd_self, upd_other _ _ _ _ (fun hq => h hq.symm), upd_self]
    · rw [upd_other _ _ _ _ h2, upd_other _ _ _ _ h1, upd_other _ _ _ _ h1,
        upd_other _ _ _ _ h2]

theorem updDel_comm {V : Type} (m : Nat → Option V) (k1 k2 : Nat) :
    updDel (updDel m k1) k2 = updDel (updDel m k2) k1 := by
  funext q
  unfold updDel
  by_cases h1 : q = k1 <;> by_cases h2 : q = k2 <;> simp [h1, h2]

theorem find_eq_findGroup (st : State) (s : Nat) :
    st.find_group_by_shard s = st.proj.findGroup s := rfl

theorem applyShard_proj (g e : Nat) (st : State) (sh : ShardDesc) :
    (applyShard g e st sh).proj = applyShardR g e st.proj sh := rfl

theorem foldShards_proj (g e : Nat) :
    ∀ (shards : List ShardDesc) (st : State),
      (shards.foldl (applyShard g e) st).proj =
        shards.foldl (applyShardR g e) st.proj := by
  intro shards
  induction shards with
  | nil => intro st; rfl
  | cons sh rest ih =>
    intro st
    rw [List.foldl_cons, List.foldl_cons, ih, applyShard_proj]

theorem apply_group_proj (st : State) (gd : GroupDesc) :
    (st.apply_group_descriptor gd).proj = applyGroupR st.proj gd := by
  unfold State.apply_group_descriptor applyGroupR
  rw [foldShards_proj]
  rfl

theorem applyGroups_proj :
    ∀ (ds : List GroupDesc) (st : State),
      (applyGroups st ds).proj = ds.foldl applyGroupR st.proj := by
  intro ds
  induction ds with
  | nil => intro st; rfl
  | cons d rest ih =>
    intro st
    show (applyGroups (st.apply_group_descriptor d) rest).proj = _
    rw [ih, apply_group_proj, List.foldl_cons]

theorem sglStep_at (g e : Nat) (m : Nat → Option (Nat × Nat)) (sh : ShardDesc)
    (q : Nat) :
    sglStep g e m sh q =
      if q = sh.id then
        (match m sh.id with
         | none => some (g, e)
         | some entry => if entry.2 < e then some (g, e) else some entry)
      else m q := by
  unfold sglStep upd
  cases hm : m sh.id with
  | none => by_cases hq : q = sh.id <;> simp [hq]
  | some entry =>
    by_cases hlt : entry.2 < e <;> by_cases hq : q = sh.id <;> simp [hq, hlt, hm]

theorem sglStep_comm (g1 e1 g2 e2 : Nat) (he : e1 ≠ e2) (sh1 sh2 : ShardDesc)
    (m : Nat → Option (Nat × Nat)) :
    sglStep g2 e2 (sglStep g1 e1 m sh1) sh2 =
      sglStep g1 e1 (sglStep g2 e2 m sh2) sh1 := by
  funext q
  by_cases hid : sh1.id = sh2.id
  · simp only [sglStep_at, hid, eq_self_iff_true, if_true]
    by_cases hq : q = sh2.id
    · rw [if_pos hq, if_pos hq]
      cases hm : m sh2.id with
      | none =>
        dsimp only
        by_cases h12 : e1 < e2
        · rw [if_pos h12, if_neg (by omega)]
        · rw [if_neg h12, if_pos (by omega)]
      | some p =>
        dsimp only
        by_cases h1 : p.2 < e1 <;> by_cases h2 : p.2 < e2
        · rw [if_pos h1, if_pos h2]
          dsimp only
          by_cases h12 : e1 < e2
          · rw [if_pos h12, if_neg (by omega)]
          · rw [if_neg h12, if_pos (by omega)]
        · rw [if_pos h1, if_neg h2]
          dsimp only
          rw [if_neg (by omega), if_pos h1]
        · rw [if_neg h1, if_pos h2]
          dsimp only
          rw [if_pos h2, if_neg (by omega)]
        · rw [if_neg h1, if_neg h2]
          dsimp only
          rw [if_neg h2, if_neg h1]
    · rw [if_neg hq, if_neg hq, if_neg hq, if_neg hq]
  · simp only [sglStep_at, if_neg hid,
      if_neg (fun h : sh2.id = sh1.id => hid h.symm)]
    by_cases hq2 : q = sh2.id
    · have hq1 : ¬ q = sh1.id := fun h => hid (h ▸ hq2)
      rw [if_pos hq2, if_neg hq1, if_pos hq2]
    · rw [if_neg hq2]
      by_cases hq1 : q = sh1.id
      · rw [if_pos hq1, if_pos hq1]
      · rw [if_neg hq1, if_neg hq1, if_neg hq2]

theorem applyShardR_eq (g e : Nat) (rs : RouteState) (sh : ShardDesc) :
    applyShardR g e rs sh =
      ⟨sglStep g e rs.shard_group_lookup sh, rs.group_id_lookup,
        rs.cached_group_states⟩ := rfl

theorem foldShardsR_eq (g e : Nat) :
    ∀ (shards : List ShardDesc) (rs : RouteState),
      shards.foldl (applyShardR g e) rs =
        ⟨shards.foldl (sglStep g e) rs.shard_group_lookup, rs.group_id_lookup,
          rs.cached_group_states⟩ := by
  intro shards
  induction shards with
  | nil => intro rs; rfl
  | cons sh rest ih =>
    intro rs
    rw [List.foldl_cons, List.foldl_cons, ih, applyShardR_eq]

theorem sglStep_fold_comm (g1 e1 g2 e2 : Nat) (he : e1 ≠ e2) :
    ∀ (l2 : List ShardDesc) (m : Nat → Option (Nat × Nat)) (sh1 : ShardDesc),
      l2.foldl (sglStep g2 e2) (sglStep g1 e1 m sh1) =
        sglStep g1 e1 (l2.foldl (sglStep g2 e2) m) sh1 := by
  intro l2
  induction l2 with
  | nil => intro m sh1; rfl
  | cons sh rest ih =>
    intro m sh1
    rw [List.foldl_cons, List.foldl_cons, sglStep_comm g1 e1 g2 e2 he, ih]

theorem sgl_folds_comm (g1 e1 g2 e2 : Nat) (he : e1 ≠ e2) :
    ∀ (l1 l2 : List ShardDesc) (m : Nat → Option (Nat × Nat)),
      l2.foldl (sglStep g2 e2) (l1.foldl (sglStep g1 e1) m) =
        l1.foldl (sglStep g1 e1) (l2.foldl (sglStep g2 e2) m) := by
  intro l1
  induction l1 with
  | nil => intro l2 m; rfl
  | cons sh rest ih =>
    intro l2 m
    rw [List.foldl_cons, List.foldl_cons, ih, sglStep_fold_comm g1 e1 g2 e2 he]

theorem applyGroupR_eq (z : RouteState) (gd : GroupDesc) :
    applyGroupR z gd =
      ⟨gd.shards.foldl (sglStep gd.id gd.epoch) z.shard_group_lookup,
       upd z.group_id_lookup gd.id
         ⟨gd.id, gd.epoch,
          (match z.group_id_lookup gd.id with
           | some old => old.leader_state
           | none =>
             match z.cached_group_states gd.id with
             | some cs => leader_state cs
             | none => none),
          replicasMap gd.replicas⟩,
       (match z.group_id_lookup gd.id with
        | some _ => z.cached_group_states
        | none =>
          match z.cached_group_states gd.id with
          | some _ => updDel z.cached_group_states gd.id
          | none => z.cached_group_states)⟩ := by
  unfold applyGroupR
  rw [foldShardsR_eq]
  cases hA : z.group_id_lookup gd.id with
  | some old => rfl
  | none =>
    cases hB : z.cached_group_states gd.id with
    | some cs => rfl
    | none => rfl

theorem applyGroupR_comm (x y : GroupDesc) (hid : x.id ≠ y.id)
    (hep : x.epoch ≠ y.epoch) (z : RouteState) :
    applyGroupR (applyGroupR z x) y = applyGroupR (applyGroupR z y) x := by
  have hyx : y.id ≠ x.id := fun h => hid h.symm
  rw [applyGroupR_eq z x, applyGroupR_eq z y, applyGroupR_eq, applyGroupR_eq]
  dsimp only
  rw [upd_other z.group_id_lookup x.id _ y.id hyx,
    upd_other z.group_id_lookup y.id _ x.id hid]
  cases hA : z.group_id_lookup x.id <;> cases hC : z.group_id_lookup y.id <;>
    cases hB : z.cached_group_states x.id <;> cases hD : z.cached_group_states y.id <;>
    simp only [updDel, hyx, hid, if_neg, hA, hB, hC, hD, RouteState.mk.injEq] <;>
    refine ⟨sgl_folds_comm x.id x.epoch y.id y.epoch hep x.shards y.shards
      z.shard_group_lookup, upd_comm _ _ _ _ _ hid, ?_⟩ <;>
    first
      | trivial
      | (funext q; by_cases hqx : q = x.id <;> by_cases hqy : q = y.id <;>
          simp [updDel, hqx, hqy, hid, hyx])

/-- Claim C5 (amended): when the delivered group descriptors have pairwise
distinct group ids and pairwise distinct epochs, applying them to any state
in any delivery order (any permutation, in particular epoch order) yields
the same `find_group_by_shard` answer for every shard: the epoch
comparisons re-establish the ordering. -/
theorem router_order_independent (st : State) (l1 l2 : List GroupDesc)
    (hperm : l1.Perm l2)
    (hdist : l1.Pairwise (fun a b => a.id ≠ b.id ∧ a.epoch ≠ b.epoch)) :
    ∀ s, (applyGroups st l1).find_group_by_shard s =
      (applyGroups st l2).find_group_by_shard s := by
  have hsymm : Symmetric (fun a b : GroupDesc => a.id ≠ b.id ∧ a.epoch ≠ b.epoch) :=
    fun a b h => ⟨Ne.symm h.1, Ne.symm h.2⟩
  have hfold : List.foldl applyGroupR st.proj l1 = List.foldl applyGroupR st.proj l2 := by
    refine hperm.foldl_eq' ?_ st.proj
    intro a ha b hb z
    by_cases hab : a = b
    · subst hab; rfl
    · obtain ⟨h1, h2⟩ := List.Pairwise.forall hsymm hdist ha hb hab
      exact applyGroupR_comm a b h1 h2 z
  intro s
  rw [find_eq_findGroup, find_eq_findGroup, applyGroups_proj, applyGroups_proj,
    hfold]

/-- Counterexample to claim C5 as stated: two descriptors for the same
group 1, at epoch 1 listing shard 1 and at epoch 2 listing nothing.  In
epoch order the final view epoch 2 exceeds the shard's recorded epoch 1
and `find_group_by_shard 1` is none; in the reversed delivery order the
stale epoch-1 descriptor overwrites the group view unconditionally and the
lookup succeeds, so delivery order changes the routing answer. -/
theorem router_order_counterexample :
    (applyGroups State.default
      [⟨1, 1, [⟨1, 1, some (.hash 1 1)⟩], []⟩,
       ⟨1, 2, [], []⟩]).find_group_by_shard 1 = none ∧
    (applyGroups State.default
      [⟨1, 2, [], []⟩,
       ⟨1, 1, [⟨1, 1, some (.hash 1 1)⟩], []⟩]).find_group_by_shard 1 =
      some ⟨1, 1, none, replicasMap []⟩ :=
  ⟨rfl, rfl⟩

/-- Witness for the amended claim C5: two descriptors for distinct groups
at distinct epochs, applied in both orders. -/
theorem router_order_independent_witness :
    ([⟨1, 1, [⟨1, 1, some (.hash 1 1)⟩], []⟩,
      ⟨2, 5, [⟨2, 1, some (.hash 0 1)⟩], []⟩] : List GroupDesc).Perm
      [⟨2, 5, [⟨2, 1, some (.hash 0 1)⟩], []⟩,
       ⟨1, 1, [⟨1, 1, some (.hash 1 1)⟩], []⟩] ∧
    ([⟨1, 1, [⟨1, 1, some (.hash 1 1)⟩], []⟩,
      ⟨2, 5, [⟨2, 1, some (.hash 0 1)⟩], []⟩] : List GroupDesc).Pairwise
      (fun a b => a.id ≠ b.id ∧ a.epoch ≠ b.epoch) ∧
    ∀ s,
      (applyGroups State.default
        [⟨1, 1, [⟨1, 1, some (.hash 1 1)⟩], []⟩,
         ⟨2, 5, [⟨2, 1, some (.hash 0 1)⟩], []⟩]).find_group_by_shard s =
      (applyGroups State.default
        [⟨2, 5, [⟨2, 1, some (.hash 0 1)⟩], []⟩,
         ⟨1, 1, [⟨1, 1, some (.hash 1 1)⟩], []⟩]).find_group_by_shard s :=
  ⟨List.Perm.swap _ _ _, by decide,
    router_order_independent State.default _ _ (List.Perm.swap _ _ _) (by decide)⟩

/-! ## SST codec and size lemmas -/

theorem decLimbs_encAux : ∀ (k n : Nat), decLimbs (encAux k n) = n := by
  intro k
  induction k with
  | zero => intro n; simp [encAux, decLimbs]
  | succ k ih =>
    intro n
    rw [encAux, decLimbs, ih]
    omega

theorem encAux_length : ∀ (k n : Nat), (encAux k n).length = k + 1 := by
  intro k
  induction k with
  | zero => intro n; rfl
  | succ k ih => intro n; simp [encAux, ih]

theorem encode_length (h : BlockHandle) : (BlockHandle.encode h).length = 16 := by
  unfold BlockHandle.encode
  rw [List.length_append, encAux_length, encAux_length]

theorem decode_encode (h : BlockHandle) :
    BlockHandle.decode_from (BlockHandle.encode h) = h := by
  unfold BlockHandle.decode_from BlockHandle.encode
  have h8 : (encAux 7 h.offset).length = 8 := encAux_length 7 h.offset
  have htake : (encAux 7 h.offset ++ encAux 7 h.size).take 8 = encAux 7 h.offset := by
    rw [← h8, List.take_left]
  have hdrop : (encAux 7 h.offset ++ encAux 7 h.size).drop 8 = encAux 7 h.size := by
    rw [← h8, List.drop_left]
  rw [htake, hdrop, List.take_of_length_le (by rw [encAux_length]),
    decLimbs_encAux, decLimbs_encAux]

theorem entrySize_pos (e : Entry) : 0 < entrySize e := by
  unfold entrySize
  omega

theorem approx_pos (es : List Entry) (h : es ≠ []) :
    0 < BlockBuilder.approximateSize ⟨es⟩ := by
  cases es with
  | nil => exact absurd rfl h
  | cons e rest =>
    unfold BlockBuilder.approximateSize
    simp only [List.map_cons, List.sum_cons]
    have := entrySize_pos e
    omega

theorem approx_zero (es : List Entry)
    (h : ¬ 0 < BlockBuilder.approximateSize ⟨es⟩) : es = [] := by
  by_contra hne
  exact h (approx_pos es hne)

theorem getLastD_append_right (l1 l2 : List Entry) (d : Entry) (h : l2 ≠ []) :
    (l1 ++ l2).getLastD d = l2.getLastD d := by
  rw [List.getLastD_eq_getLast?, List.getLastD_eq_getLast?, List.getLast?_append]
  cases hl : l2.getLast? with
  | none => exact absurd (List.getLast?_eq_none_iff.mp hl) h
  | some a => rfl

theorem indexEntriesFrom_append :
    ∀ (dbs : List (List Entry)) (k : Nat) (blk : List Entry),
      indexEntriesFrom k (dbs ++ [blk]) =
        indexEntriesFrom k dbs ++
          [⟨(blk.getLastD dummyEntry).ts, (blk.getLastD dummyEntry).key,
            BlockHandle.encode ⟨k + dbs.length, blk.length⟩⟩] := by
  intro dbs
  induction dbs with
  | nil => intro k blk; simp [indexEntriesFrom]
  | cons b0 rest ih =>
    intro k blk
    rw [List.cons_append, indexEntriesFrom, ih, indexEntriesFrom]
    simp only [List.cons_append, List.length_cons]
    have : k + 1 + rest.length = k + (rest.length + 1) := by omega
    rw [this]

/-! ## SST build invariant -/

theorem new_inv (blockSize : Nat) : BuildInv [] (SstBuilder.new blockSize) [] :=
  ⟨rfl, rfl, by simp, rfl, fun h => absurd rfl h, rfl⟩

theorem flush_inv (processed : List Entry) (b : SstBuilder) (dbs : List (List Entry))
    (hInv : BuildInv processed b dbs) (hne : b.dataBlock.entries ≠ []) :
    BuildInv processed b.flush_data_block (dbs ++ [b.dataBlock.entries]) := by
  have hpne : processed ≠ [] := by
    intro h
    have hflat := hInv.flat
    rw [h] at hflat
    exact hne (List.append_eq_nil.mp hflat).2
  have hlast2 : ikOf (b.dataBlock.entries.getLastD dummyEntry) = (b.lastTs, b.lastKey) := by
    have h1 := hInv.last hpne
    rw [← hInv.flat, getLastD_append_right _ _ _ hne] at h1
    exact h1
  have hoff : b.file.segments.length = dbs.length := by
    rw [hInv.seg, List.length_map]
  refine ⟨?_, ?_, ?_, ?_, ?_, ?_⟩
  · show b.file.segments ++ [Segment.block b.dataBlock.entries] = _
    rw [hInv.seg, List.map_append]
    rfl
  · show (dbs ++ [b.dataBlock.entries]).flatten ++ BlockBuilder.new.entries = processed
    rw [List.flatten_append]
    simp only [BlockBuilder.new, List.flatten, List.append_nil, List.flatten_nil]
    exact hInv.flat
  · intro blk hblk
    rcases List.mem_append.mp hblk with hmem | hmem
    · exact hInv.ne blk hmem
    · rw [List.mem_singleton.mp hmem]
      exact hne
  · show b.indexBlock.entries ++
        [⟨b.lastTs, b.lastKey,
          BlockHandle.encode ⟨b.file.segments.length, b.dataBlock.entries.length⟩⟩] = _
    rw [indexEntriesFrom_append, hInv.idx, Nat.zero_add, hoff]
    have hts : (b.dataBlock.entries.getLastD dummyEntry).ts = b.lastTs := by
      have := congrArg Prod.fst hlast2
      simpa [ikOf] using this
    have hkey : (b.dataBlock.entries.getLastD dummyEntry).key = b.lastKey := by
      have := congrArg Prod.snd hlast2
      simpa [ikOf] using this
    rw [hts, hkey]
  · intro h
    exact hInv.last h
  · exact hInv.err

theorem add_inv (processed : List Entry) (b : SstBuilder) (dbs : List (List Entry))
    (e : Entry) (hInv : BuildInv processed b dbs)
    (hok : addOk b.lastTs b.lastKey e.ts e.key) :
    ∃ b' dbs', b.add e.ts e.key e.value = some b' ∧
      BuildInv (processed ++ [e]) b' dbs' ∧
      b'.lastTs = e.ts ∧ b'.lastKey = e.key := by
  have hInv1 : BuildInv (processed ++ [e])
      { b with
        lastTs := e.ts
        lastKey := e.key
        dataBlock := b.dataBlock.add e.ts e.key e.value } dbs := by
    refine ⟨hInv.seg, ?_, hInv.ne, hInv.idx, ?_, hInv.err⟩
    · show dbs.flatten ++ (b.dataBlock.entries ++ [⟨e.ts, e.key, e.value⟩]) = _
      rw [← List.append_assoc, hInv.flat]
    · intro _
      rw [getLastD_append_right _ _ _ (by simp)]
      rfl
  have hadd : b.add e.ts e.key e.value =
      some (if (BlockBuilder.add b.dataBlock e.ts e.key e.value).approximateSize
              < b.blockSize
            then { b with
                   lastTs := e.ts
                   lastKey := e.key
                   dataBlock := b.dataBlock.add e.ts e.key e.value }
            else ({ b with
                    lastTs := e.ts
                    lastKey := e.key
                    dataBlock := b.dataBlock.add e.ts e.key e.value
                  } : SstBuilder).flush_data_block) := by
    unfold SstBuilder.add
    rw [hInv.err]
    rw [if_neg (by simp), if_pos hok]
    dsimp only
    by_cases hsz :
        b.blockSize ≤ (BlockBuilder.add b.dataBlock e.ts e.key e.value).approximateSize
    · rw [if_pos hsz, if_neg (by omega)]
    · rw [if_neg hsz, if_pos (by omega)]
  by_cases hsz : (BlockBuilder.add b.dataBlock e.ts e.key e.value).approximateSize
      < b.blockSize
  · rw [hadd, if_pos hsz]
    exact ⟨_, dbs, rfl, hInv1, rfl, rfl⟩
  · rw [hadd, if_neg hsz]
    refine ⟨_, dbs ++ [b.dataBlock.entries ++ [⟨e.ts, e.key, e.value⟩]], rfl, ?_, rfl, rfl⟩
    exact flush_inv _ _ dbs hInv1 (by simp [BlockBuilder.add])

theorem buildAll_inv :
    ∀ (es : List Entry) (b : SstBuilder) (processed : List Entry)
      (dbs : List (List Entry)), BuildInv processed b dbs →
      validFrom b.lastTs b.lastKey es = true →
      ∃ b' dbs', buildAll b es = some b' ∧ BuildInv (processed ++ es) b' dbs' := by
  intro es
  induction es with
  | nil =>
    intro b processed dbs hInv _
    exact ⟨b, dbs, rfl, by rw [List.append_nil]; exact hInv⟩
  | cons e rest ih =>
    intro b processed dbs hInv hv
    rw [validFrom, Bool.and_eq_true, decide_eq_true_eq] at hv
    obtain ⟨hok, hvrest⟩ := hv
    obtain ⟨b1, dbs1, hadd, hInv1, hts, hkey⟩ := add_inv processed b dbs e hInv hok
    have hvrest1 : validFrom b1.lastTs b1.lastKey rest = true := by
      rw [hts, hkey]
      exact hvrest
    obtain ⟨b', dbs', hrest, hInv'⟩ := ih b1 (processed ++ [e]) dbs1 hInv1 hvrest1
    refine ⟨b', dbs', ?_, ?_⟩
    · rw [buildAll, hadd]
      exact hrest
    · rw [List.append_assoc] at hInv'
      simpa using hInv'

theorem approxB_pos (bb : BlockBuilder) (h : bb.entries ≠ []) :
    0 < bb.approximateSize :=
  approx_pos bb.entries h

theorem approxB_nil (bb : BlockBuilder) (h : ¬ 0 < bb.approximateSize) :
    bb.entries = [] := by
  by_contra h0
  exact h (approxB_pos bb h0)

theorem finish_shape (es : List Entry) (b : SstBuilder) (dbs : List (List Entry))
    (hInv : BuildInv es b dbs) (hne : es ≠ []) :
    ∃ bf n dbs', b.finish = some (bf, n) ∧ TableShape es dbs' bf.file.segments := by
  obtain ⟨b1, dbs1, hb1, hInv1, hdb1⟩ :
      ∃ b1 dbs1,
        (if 0 < b.dataBlock.approximateSize then b.flush_data_block else b) = b1 ∧
        BuildInv es b1 dbs1 ∧ b1.dataBlock.entries = [] := by
    by_cases hd : 0 < b.dataBlock.approximateSize
    · refine ⟨b.flush_data_block, dbs ++ [b.dataBlock.entries], if_pos hd, ?_, rfl⟩
      refine flush_inv es b dbs hInv ?_
      intro h0
      rw [show b.dataBlock = ⟨b.dataBlock.entries⟩ from rfl, h0] at hd
      simp [BlockBuilder.approximateSize] at hd
    · exact ⟨b, dbs, if_neg hd, hInv, approxB_nil b.dataBlock hd⟩
  have hflat1 : dbs1.flatten = es := by
    have h := hInv1.flat
    rw [hdb1, List.append_nil] at h
    exact h
  have hdbs1 : dbs1 ≠ [] := by
    intro h
    rw [h] at hflat1
    exact hne hflat1.symm
  have hidxne : b1.indexBlock.entries ≠ [] := by
    rw [hInv1.idx]
    cases dbs1 with
    | nil => exact absurd rfl hdbs1
    | cons blk rest => exact List.cons_ne_nil _ _
  have hidx : 0 < b1.indexBlock.approximateSize := approxB_pos _ hidxne
  have hfin : b.finish = some
      ({ b1 with
          file := ⟨b1.file.segments ++ [Segment.block b1.indexBlock.entries] ++
            [Segment.raw (BlockHandle.encode
              ⟨b1.file.segments.length, b1.indexBlock.entries.length⟩)]⟩
          indexBlock := BlockBuilder.new },
        (b1.file.segments ++ [Segment.block b1.indexBlock.entries] ++
          [Segment.raw (BlockHandle.encode
            ⟨b1.file.segments.length, b1.indexBlock.entries.length⟩)]).length) := by
    unfold SstBuilder.finish
    rw [hInv.err, if_neg (by simp)]
    dsimp only
    rw [hb1, if_pos hidx]
    rfl
  refine ⟨_, _, dbs1, hfin, ⟨hflat1, hdbs1, hInv1.ne, ?_⟩⟩
  show b1.file.segments ++ [Segment.block b1.indexBlock.entries] ++
      [Segment.raw (BlockHandle.encode
        ⟨b1.file.segments.length, b1.indexBlock.entries.length⟩)] = _
  rw [List.append_assoc, hInv1.seg, hInv1.idx, List.length_map]
  rfl

theorem buildTable_shape (blockSize : Nat) (es : List Entry)
    (hv : validFrom 0 [] es = true) (hne : es ≠ []) :
    ∃ segs dbs, buildTable blockSize es = some segs ∧ TableShape es dbs segs := by
  obtain ⟨b', dbs', hbuild, hInv⟩ :=
    buildAll_inv es (SstBuilder.new blockSize) [] [] (new_inv blockSize) hv
  rw [List.nil_append] at hInv
  obtain ⟨bf, n, dbs2, hfin, hshape⟩ := finish_shape es b' dbs' hInv hne
  refine ⟨bf.file.segments, dbs2, ?_, hshape⟩
  unfold buildTable
  rw [hbuild]
  dsimp only
  rw [hfin]

theorem openSegs_shape (es : List Entry) (dbs : List (List Entry))
    (segs : List Segment) (hshape : TableShape es dbs segs) :
    SstReader.openSegs segs = some ⟨segs, indexEntriesFrom 0 dbs⟩ := by
  obtain ⟨hflat, hdbs, hblks, hsegs⟩ := hshape
  unfold SstReader.openSegs
  have hlast : segs.getLast? = some (Segment.raw (BlockHandle.encode
      ⟨dbs.length, (indexEntriesFrom 0 dbs).length⟩)) := by
    rw [hsegs]
    rw [show dbs.map Segment.block ++
        [Segment.block (indexEntriesFrom 0 dbs),
         Segment.raw (BlockHandle.encode
           ⟨dbs.length, (indexEntriesFrom 0 dbs).length⟩)] =
        (dbs.map Segment.block ++ [Segment.block (indexEntriesFrom 0 dbs)]) ++
        [Segment.raw (BlockHandle.encode
          ⟨dbs.length, (indexEntriesFrom 0 dbs).length⟩)] by
      rw [List.append_assoc]; rfl]
    exact List.getLast?_concat _
  rw [hlast]
  dsimp only
  rw [if_pos (by simp [encode_length, FOOTER_SIZE]), decode_encode]
  have hidx : segs[(⟨dbs.length, (indexEntriesFrom 0 dbs).length⟩ :
      BlockHandle).offset]? = some (Segment.block (indexEntriesFrom 0 dbs)) := by
    show segs[dbs.length]? = _
    rw [hsegs, List.getElem?_append]
    rw [if_neg (by rw [List.length_map]; omega)]
    rw [List.length_map, Nat.sub_self]
    rfl
  rw [hidx]

theorem shape_lookup (es : List Entry) (dbs : List (List Entry))
    (segs : List Segment) (hshape : TableShape es dbs segs) :
    ∀ (i : Nat) (blk : List Entry), dbs[i]? = some blk →
      segs[i]? = some (Segment.block blk) := by
  obtain ⟨-, -, -, hsegs⟩ := hshape
  intro i blk hget
  have hi : i < dbs.length := by
    by_contra hge
    rw [List.getElem?_eq_none (by omega)] at hget
    exact Option.noConfusion hget
  rw [hsegs, List.getElem?_append, if_pos (by rw [List.length_map]; omega),
    List.getElem?_map, hget]
  rfl

theorem mapRead_eq (segs : List Segment) :
    ∀ (dbs : List (List Entry)) (k : Nat),
      (∀ (i : Nat) (blk : List Entry), dbs[i]? = some blk →
        segs[k + i]? = some (Segment.block blk)) →
      (indexEntriesFrom k dbs).map (fun ie => readBlock segs ie.value) = dbs := by
  intro dbs
  induction dbs with
  | nil => intro k _; rfl
  | cons blk rest ih =>
    intro k hprop
    rw [indexEntriesFrom, List.map_cons]
    have hhead : readBlock segs (BlockHandle.encode ⟨k, blk.length⟩) = blk := by
      unfold readBlock
      rw [decode_encode]
      have := hprop 0 blk (by simp)
      rw [Nat.add_zero] at this
      rw [this]
    have htail :
        (indexEntriesFrom (k + 1) rest).map (fun ie => readBlock segs ie.value) = rest := by
      refine ih (k + 1) ?_
      intro i blk' hget
      have := hprop (i + 1) blk' (by simpa using hget)
      rw [show k + (i + 1) = k + 1 + i by omega] at this
      exact this
    rw [hhead, htail]

theorem iterAll_shape (es : List Entry) (dbs : List (List Entry))
    (segs : List Segment) (hshape : TableShape es dbs segs) :
    iterAll ⟨segs, indexEntriesFrom 0 dbs⟩ = es := by
  unfold iterAll
  have hlookup : ∀ (i : Nat) (blk : List Entry), dbs[i]? = some blk →
      segs[0 + i]? = some (Segment.block blk) := by
    intro i blk hget
    rw [Nat.zero_add]
    exact shape_lookup es dbs segs hshape i blk hget
  rw [mapRead_eq segs dbs 0 hlookup]
  exact hshape.1

/-- Claim C1 (amended): for every non-empty sequence satisfying the add
monotonicity precondition, building an SST with `add` then `finish`,
opening it with the reader and fully iterating yields exactly the same
sequence in the same order, for every block size. -/
theorem sst_round_trip (blockSize : Nat) (es : List Entry)
    (hv : validFrom 0 [] es = true) (hne : es ≠ []) :
    ∃ segs r, buildTable blockSize es = some segs ∧
      SstReader.openSegs segs = some r ∧ iterAll r = es := by
  obtain ⟨segs, dbs, hbuild, hshape⟩ := buildTable_shape blockSize es hv hne
  exact ⟨segs, ⟨segs, indexEntriesFrom 0 dbs⟩, hbuild,
    openSegs_shape es dbs segs hshape, iterAll_shape es dbs segs hshape⟩

/-- Counterexample to claim C1 as stated: the empty sequence satisfies the
add precondition vacuously, but `finish` writes nothing (no footer), the
file is empty (size 0), and `open` fails its size assertion, so no
iteration can return the (empty) sequence. -/
theorem sst_round_trip_empty :
    validFrom 0 [] [] = true ∧ buildTable 8192 [] = some [] ∧
    SstReader.openSegs [] = none :=
  ⟨rfl, rfl, rfl⟩

/-- Witness for the amended claim C1 at the single entry `(5, "k", "v")`. -/
theorem sst_round_trip_witness :
    validFrom 0 [] [⟨5, [107], [118]⟩] = true ∧
    ([⟨5, [107], [118]⟩] : List Entry) ≠ [] ∧
    ∃ segs r, buildTable 8192 [⟨5, [107], [118]⟩] = some segs ∧
      SstReader.openSegs segs = some r ∧ iterAll r = [⟨5, [107], [118]⟩] :=
  ⟨by decide, by decide, sst_round_trip 8192 [⟨5, [107], [118]⟩] (by decide) (by decide)⟩

/-! ## Seek correctness over a built table (claim C2) -/

theorem getLastD_mem : ∀ (l : List Entry), l ≠ [] → l.getLastD dummyEntry ∈ l := by
  intro l
  induction l with
  | nil => intro h; exact absurd rfl h
  | cons x rest ih =>
    intro _
    cases rest with
    | nil => exact List.mem_singleton_self x
    | cons y t => exact List.mem_cons_of_mem x (ih (List.cons_ne_nil y t))

theorem pairwise_last :
    ∀ (l : List Entry),
      List.Pairwise (fun a b => ikLt (ikOf a) (ikOf b)) l →
      ∀ e ∈ l, e = l.getLastD dummyEntry ∨
        ikLt (ikOf e) (ikOf (l.getLastD dummyEntry)) := by
  intro l
  induction l with
  | nil => intro _ e he; cases he
  | cons x rest ih =>
    intro hp e he
    cases rest with
    | nil =>
      rw [List.mem_singleton.mp he]
      exact Or.inl rfl
    | cons y t =>
      have hlast : (x :: y :: t).getLastD dummyEntry = (y :: t).getLastD dummyEntry := rfl
      rw [hlast]
      rcases List.mem_cons.mp he with rfl | hmem
      · right
        exact (List.pairwise_cons.mp hp).1 _ (getLastD_mem (y :: t) (List.cons_ne_nil y t))
      · exact ih (List.pairwise_cons.mp hp).2 e hmem

theorem sorted_dropWhile_head (t : Nat × List Nat) :
    ∀ (l : List Entry),
      List.Pairwise (fun a b => ikLt (ikOf a) (ikOf b)) l →
      ∀ e ∈ l, ikOf e = t →
      (l.dropWhile (fun x => ikLtb (ikOf x) t)).head? = some e := by
  intro l
  induction l with
  | nil => intro _ e he; cases he
  | cons x rest ih =>
    intro hp e he hik
    rw [List.dropWhile_cons]
    by_cases hx : ikLtb (ikOf x) t = true
    · rw [if_pos hx]
      have hxe : x ≠ e := by
        intro h
        rw [h, hik] at hx
        exact absurd (of_decide_eq_true hx) (ikLt_irrefl t)
      have hmem : e ∈ rest := by
        rcases List.mem_cons.mp he with rfl | hmem
        · exact absurd rfl hxe
        · exact hmem
      exact ih (List.pairwise_cons.mp hp).2 e hmem hik
    · rw [if_neg hx]
      rcases List.mem_cons.mp he with rfl | hmem
      · rfl
      · have hlt : ikLt (ikOf x) (ikOf e) := (List.pairwise_cons.mp hp).1 e hmem
        rw [hik] at hlt
        exact absurd (decide_eq_true hlt) hx

theorem twoLevelSeek_cons_skip (segs : List Segment) (ie : Entry)
    (rest : List Entry) (t : Nat × List Nat) (h : ikLtb (ikOf ie) t = true) :
    twoLevelSeek segs (ie :: rest) t = twoLevelSeek segs rest t := by
  unfold twoLevelSeek
  rw [List.dropWhile_cons, if_pos h]

theorem twoLevelSeek_cons_stop (segs : List Segment) (ie : Entry)
    (rest : List Entry) (t : Nat × List Nat) (h : ¬ ikLtb (ikOf ie) t = true) :
    twoLevelSeek segs (ie :: rest) t =
      (match blockSeek (readBlock segs ie.value) t with
       | e :: _ => some e
       | [] => headOfBlocks segs rest) := by
  unfold twoLevelSeek
  rw [List.dropWhile_cons, if_neg h]

theorem twoLevelSeek_spec (segs : List Segment) (t : Nat × List Nat) :
    ∀ (dbs : List (List Entry)) (k : Nat),
      (∀ (i : Nat) (blk : List Entry), dbs[i]? = some blk →
        segs[k + i]? = some (Segment.block blk)) →
      (∀ blk ∈ dbs, blk ≠ []) →
      List.Pairwise (fun a b => ikLt (ikOf a) (ikOf b)) dbs.flatten →
      twoLevelSeek segs (indexEntriesFrom k dbs) t =
        (dbs.flatten.dropWhile (fun e => ikLtb (ikOf e) t)).head? := by
  intro dbs
  induction dbs with
  | nil => intro k _ _ _; rfl
  | cons blk rest ih =>
    intro k hprop hne hsort
    have hlookup0 : segs[k]? = some (Segment.block blk) := by
      have := hprop 0 blk (by simp)
      rwa [Nat.add_zero] at this
    have hproprest : ∀ (i : Nat) (blk' : List Entry), rest[i]? = some blk' →
        segs[(k + 1) + i]? = some (Segment.block blk') := by
      intro i blk' hget
      have := hprop (i + 1) blk' (by simpa using hget)
      rwa [show k + (i + 1) = k + 1 + i by omega] at this
    have hblkne : blk ≠ [] := hne blk (List.mem_cons_self _ _)
    have hsorts := List.pairwise_append.mp (by rw [← List.flatten_cons]; exact hsort)
    have hread : readBlock segs (BlockHandle.encode ⟨k, blk.length⟩) = blk := by
      unfold readBlock
      rw [decode_encode, hlookup0]
    rw [indexEntriesFrom]
    by_cases hL : ikLtb (ikOf (blk.getLastD dummyEntry)) t = true
    · rw [twoLevelSeek_cons_skip segs
        ⟨(blk.getLastD dummyEntry).ts, (blk.getLastD dummyEntry).key,
          BlockHandle.encode ⟨k, blk.length⟩⟩ (indexEntriesFrom (k + 1) rest) t hL]
      rw [ih (k + 1) hproprest (fun b hb => hne b (List.mem_cons_of_mem _ hb)) hsorts.2.1]
      rw [List.flatten_cons, List.dropWhile_append]
      have hall : blk.dropWhile (fun e => ikLtb (ikOf e) t) = [] := by
        rw [List.dropWhile_eq_nil_iff]
        intro x hxmem
        rcases pairwise_last blk hsorts.1 x hxmem with rfl | hlt
        · exact hL
        · exact decide_eq_true (ikLt_trans hlt (of_decide_eq_true hL))
      rw [hall]
      rfl
    · rw [twoLevelSeek_cons_stop segs
        ⟨(blk.getLastD dummyEntry).ts, (blk.getLastD dummyEntry).key,
          BlockHandle.encode ⟨k, blk.length⟩⟩ (indexEntriesFrom (k + 1) rest) t hL]
      have hdwne : blk.dropWhile (fun e => ikLtb (ikOf e) t) ≠ [] := by
        intro hnil
        exact hL (List.dropWhile_eq_nil_iff.mp hnil _ (getLastD_mem blk hblkne))
      rw [List.flatten_cons, List.dropWhile_append]
      cases hdw : blk.dropWhile (fun e => ikLtb (ikOf e) t) with
      | nil => exact absurd hdw hdwne
      | cons e es' =>
        have hbs : blockSeek (readBlock segs
            (BlockHandle.encode ⟨k, blk.length⟩)) t = e :: es' := by
          rw [hread]
          exact hdw
        rw [hbs]
        simp

theorem sst_seek_built (es : List Entry) (dbs : List (List Entry))
    (segs : List Segment) (hshape : TableShape es dbs segs)
    (hsort : List.Pairwise (fun a b => ikLt (ikOf a) (ikOf b)) es)
    (t : Nat × List Nat) :
    twoLevelSeek segs (indexEntriesFrom 0 dbs) t =
      (es.dropWhile (fun e => ikLtb (ikOf e) t)).head? := by
  have h := twoLevelSeek_spec segs t dbs 0
    (fun i blk hget => by
      rw [Nat.zero_add]
      exact shape_lookup es dbs segs hshape i blk hget)
    hshape.2.2.1 (by rw [hshape.1]; exact hsort)
  rw [h, hshape.1]

/-- Claim C2: over a table built from a valid sequence, `get(ts, key)`
returns `Some(value)` for every written `(ts, key, value)`, and `None` for
every `(ts, key)` pair that was not written — an entry is only returned on
an exact user_key and timestamp match. -/
theorem sst_point_lookup (blockSize : Nat) (es : List Entry)
    (hv : validFrom 0 [] es = true) :
    (∀ (ts : Nat) (key value : List Nat), (⟨ts, key, value⟩ : Entry) ∈ es →
      ∃ segs r, buildTable blockSize es = some segs ∧
        SstReader.openSegs segs = some r ∧ r.get ts key = some value) ∧
    (∀ (ts : Nat) (key : List Nat), (∀ value, (⟨ts, key, value⟩ : Entry) ∉ es) →
      ∀ segs r, buildTable blockSize es = some segs →
        SstReader.openSegs segs = some r → r.get ts key = none) := by
  have hsort := (validFrom_sorted es 0 [] hv).1
  constructor
  · intro ts key value hmem
    have hne : es ≠ [] := List.ne_nil_of_mem hmem
    obtain ⟨segs, dbs, hbuild, hshape⟩ := buildTable_shape blockSize es hv hne
    refine ⟨segs, ⟨segs, indexEntriesFrom 0 dbs⟩, hbuild,
      openSegs_shape es dbs segs hshape, ?_⟩
    unfold SstReader.get
    dsimp only
    rw [sst_seek_built es dbs segs hshape hsort (ts, key)]
    rw [sorted_dropWhile_head (ts, key) es hsort ⟨ts, key, value⟩ hmem rfl]
    dsimp only
    rw [if_pos ⟨rfl, rfl⟩]
  · intro ts key hnot segs r hbuild hopen
    by_cases hnil : es = []
    · subst hnil
      have h0 : buildTable blockSize [] = some [] := rfl
      rw [h0] at hbuild
      injection hbuild with hsegs
      rw [← hsegs] at hopen
      exact absurd hopen (by intro h; exact Option.noConfusion h)
    · obtain ⟨segs0, dbs, hbuild0, hshape⟩ := buildTable_shape blockSize es hv hnil
      rw [hbuild0] at hbuild
      injection hbuild with hseq
      rw [← hseq] at hopen
      rw [openSegs_shape es dbs segs0 hshape] at hopen
      injection hopen with hreq
      rw [← hreq]
      unfold SstReader.get
      dsimp only
      rw [sst_seek_built es dbs segs0 hshape hsort (ts, key)]
      cases hdw : es.dropWhile (fun e => ikLtb (ikOf e) (ts, key)) with
      | nil => rfl
      | cons e es' =>
        have hemem : e ∈ es := by
          have hsub : (es.dropWhile (fun x => ikLtb (ikOf x) (ts, key))).Sublist es :=
            List.dropWhile_sublist _
          rw [hdw] at hsub
          exact List.Sublist.mem (List.mem_cons_self _ _) hsub
        cases e with
        | mk ets ekey ev =>
          have hcond : ¬ ((⟨ets, ekey, ev⟩ : Entry).ts = ts ∧
              (⟨ets, ekey, ev⟩ : Entry).key = key) := by
            rintro ⟨h1, h2⟩
            dsimp at h1 h2
            rw [h1, h2] at hemem
            exact hnot ev hemem
          simp only [List.head?_cons]
          rw [if_neg hcond]

/-- Witness for claim C2 at the single entry `(5, "k", "v")`. -/
theorem sst_point_lookup_witness :
    validFrom 0 [] [⟨5, [107], [118]⟩] = true ∧
    ((∀ (ts : Nat) (key value : List Nat),
        (⟨ts, key, value⟩ : Entry) ∈ ([⟨5, [107], [118]⟩] : List Entry) →
        ∃ segs r, buildTable 8192 [⟨5, [107], [118]⟩] = some segs ∧
          SstReader.openSegs segs = some r ∧ r.get ts key = some value) ∧
     (∀ (ts : Nat) (key : List Nat),
        (∀ value, (⟨ts, key, value⟩ : Entry) ∉ ([⟨5, [107], [118]⟩] : List Entry)) →
        ∀ segs r, buildTable 8192 [⟨5, [107], [118]⟩] = some segs →
          SstReader.openSegs segs = some r → r.get ts key = none)) :=
  ⟨by decide, sst_point_lookup 8192 [⟨5, [107], [118]⟩] (by decide)⟩

/-! ## Framing reads in the open path (claim C8) -/

/-- Claim C8 (code bug): `SstReader::open` binds and discards the fill
counts that `read_at` returns.  With a reader whose footer read fills 0 of
the 16 requested bytes (a short read at EOF), `open` silently proceeds on
the zero-filled buffer and succeeds — decoding an all-zero footer — instead
of returning an error as the claim requires. -/
theorem open_ignores_short_read :
    shortReader FOOTER_SIZE 0 = some (0, List.replicate FOOTER_SIZE 0) ∧
    (0 : Nat) < FOOTER_SIZE ∧
    SstReader.openRaw shortReader FOOTER_SIZE = some (⟨0, 0⟩, []) :=
  ⟨rfl, by decide, rfl⟩
